import Mathlib

/-!
# serialkey: named monotonic int64 sequences

A shallow embedding of `local.go` (the in-memory keychain `Local`) and of the
methods `Close`, `CreateTable` and `Last` of `pgx_pool.go` (the keychain
`PgxPool`, with the query generator of `psql.go`), with the properties of the
keychain contract proved over it.

Go's `int64` is modelled by `Int` together with the explicit two's-complement
reduction `wrapInt64`, applied wherever the source performs signed arithmetic
(`atomic.AddInt64(value, 1)` and `chain.start - 1`).  A Go `error` is an
`Option Error`, `none` being `nil`; an `Error` is either a plain error, told
from the others by its identity, or one that wraps its cause, as `fmt.Errorf`
with `%w` builds it.  The map
`map[string]*int64` is a partial function from keys to cell contents.  The
connection pool, the template engine and the store behind them are external:
their answers are taken from an arbitrary oracle.
-/

namespace Serialkey

/-! ## Machine integers -/

/-- The least value of Go's `int64`. -/
def minInt64 : Int := -9223372036854775808

/-- The greatest value of Go's `int64`. -/
def maxInt64 : Int := 9223372036854775807

/-- Reduction of a mathematical integer to the `int64` value Go computes for it
(signed arithmetic wraps around in two's complement). -/
def wrapInt64 (x : Int) : Int :=
  (x + 9223372036854775808) % 18446744073709551616 - 9223372036854775808

/-- The integer is representable as an `int64`. -/
def IsInt64 (x : Int) : Prop := minInt64 ≤ x ∧ x ≤ maxInt64

instance (x : Int) : Decidable (IsInt64 x) := by
  unfold IsInt64; exact inferInstance

/-- A non-nil Go `error`: a plain error, or an error that wraps a cause under a
message, as `fmt.Errorf` builds it with `%w`.  Go compares error values by
identity and not by their text, so a plain error carries, next to its message,
the identity `id` of the value: two plain errors with the same message and
different identities are different errors.  A wrapping error is told by its
message and its cause; the code never takes one for the target of `errors.Is`. -/
inductive Error where
  | new (id : Nat) (msg : String)
  | wrap (msg : String) (cause : Error)
  deriving DecidableEq, Repr

/-- A Go `error` value; `none` is `nil`. -/
abbrev GoError := Option Error

/-! ## local.go -/

/-- The struct `LocalConfiguration`. -/
structure LocalConfiguration where
  start : Int

/-- The type `LocalOption`, a function that changes the configuration. -/
abbrev LocalOption := LocalConfiguration → LocalConfiguration

/-- The option `LocalWithStart`, which sets the start number. -/
def LocalWithStart (start : Int) : LocalOption :=
  fun cfg => { cfg with start := start }

/-- The struct `Local` (the lock is not part of the sequential state). -/
structure Local where
  start : Int
  table : String → Option Int

/-- The constructor `NewLocal`: the zero configuration, changed by each option
in turn, and an empty table. -/
def NewLocal (opts : List LocalOption) : Local :=
  let cfg := opts.foldl (fun cfg opt => opt cfg) { start := 0 }
  { start := cfg.start, table := fun _ => none }

/-- The method `Local.Next`, run by a single caller.  The first lookup is the
one under the read lock, the second the one under the write lock. -/
def Local.Next (chain : Local) (key : String) : (Int × GoError) × Local :=
  match chain.table key with
  | some value =>
    let i := wrapInt64 (value + 1)
    ((i, none), { chain with table := Function.update chain.table key (some i) })
  | none =>
    match chain.table key with
    | some value =>
      let i := wrapInt64 (value + 1)
      ((i, none), { chain with table := Function.update chain.table key (some i) })
    | none =>
      let i := chain.start
      ((i, none), { chain with table := Function.update chain.table key (some i) })

/-- The method `Local.Last`.  It writes nothing, so the keychain it hands back
is the one it was given. -/
def Local.Last (chain : Local) (key : String) : (Int × GoError) × Local :=
  match chain.table key with
  | some value => ((value, none), chain)
  | none => ((wrapInt64 (chain.start - 1), none), chain)

/-- The method `Local.Forward`, run by a single caller.  The first lookup is
the one under the read lock, the second the one under the write lock. -/
def Local.Forward (chain : Local) (key : String) (target : Int) :
    (Int × GoError) × Local :=
  let slow : (Int × GoError) × Local :=
    ((target, none),
      { chain with table := Function.update chain.table key (some target) })
  let exclusive : (Int × GoError) × Local :=
    match chain.table key with
    | some i => if i ≥ target then ((i, none), chain) else slow
    | none => slow
  match chain.table key with
  | some i => if i ≥ target then ((i, none), chain) else exclusive
  | none => exclusive

/-- The method `Local.Close`: it returns `nil` and touches nothing. -/
def Local.Close (chain : Local) : GoError × Local :=
  (none, chain)

/-! ## Sequential histories on a `Local` keychain -/

/-- One call of the keychain contract. -/
inductive Call where
  | next (key : String)
  | last (key : String)
  | forward (key : String) (target : Int)
  deriving DecidableEq, Repr

/-- The arguments of the call are `int64` values, as the Go signature demands. -/
def Call.WellTyped : Call → Prop
  | .next _ => True
  | .last _ => True
  | .forward _ target => IsInt64 target

instance (c : Call) : Decidable c.WellTyped := by
  cases c <;> unfold Call.WellTyped <;> exact inferInstance

/-- Dispatch of one call to the method of `Local` it names. -/
def Local.call (chain : Local) : Call → (Int × GoError) × Local
  | .next key => chain.Next key
  | .last key => chain.Last key
  | .forward key target => chain.Forward key target

/-- A sequential history: the calls are made one after the other; the result
is the list of calls with what each returned, oldest first, and the keychain
left behind. -/
def Local.run (chain : Local) : List Call → List (Call × Int × GoError) × Local
  | [] => ([], chain)
  | c :: cs =>
    let r := chain.call c
    let rest := r.2.run cs
    ((c, r.1) :: rest.1, rest.2)

/-- The values that `Next` and `Forward` returned for `key` in a history,
oldest first. -/
def returnedFor (key : String) : List (Call × Int × GoError) → List Int
  | [] => []
  | (.next k, v, _) :: es =>
    if k = key then v :: returnedFor key es else returnedFor key es
  | (.forward k _, v, _) :: es =>
    if k = key then v :: returnedFor key es else returnedFor key es
  | (.last _, _, _) :: es => returnedFor key es

/-- The key on which the call is made. -/
def Call.key : Call → String
  | .next key => key
  | .last key => key
  | .forward key _ => key

/-- The calls of a list that are made on `key`, in their order. -/
def callsOn (key : String) (calls : List Call) : List Call :=
  calls.filter (fun c => decide (c.key = key))

/-- The part of a history that concerns `key`: the calls made on `key` with
what each returned, in their order. -/
def eventsOn (key : String) (trace : List (Call × Int × GoError)) :
    List (Call × Int × GoError) :=
  trace.filter (fun e => decide (e.1.key = key))

/-- The call is a `Next(key)` made while the cell of `key` holds the greatest
`int64`, so that its increment wraps around. -/
def Local.wrapsOn (chain : Local) (key : String) : Call → Bool
  | .next k => k == key && chain.table k == some maxInt64
  | _ => false

/-- No `Next(key)` of the history wraps around. -/
def Local.noWrapOn (chain : Local) (key : String) : List Call → Bool
  | [] => true
  | c :: cs => !chain.wrapsOn key c && (chain.call c).2.noWrapOn key cs

/-- The cell of `key` agrees with the values returned for `key` so far: there
is no cell when nothing was returned, and otherwise the cell holds an `int64`
that was returned and that no returned value exceeds. -/
def Local.Tracks (chain : Local) (key : String) (vals : List Int) : Prop :=
  match chain.table key with
  | none => vals = []
  | some v => IsInt64 v ∧ v ∈ vals ∧ ∀ u ∈ vals, u ≤ v

/-! ## serialkey.go and pgx_pool.go -/

/-- The constant `Table`, the default table name. -/
def Table : String := "serialkeys"

/-- Modelled from the spec: the connection pool `*pgxpool.Pool` is an injected
external collaborator, absent from the sources; the keychain uses its operations
"close the pool", "acquire a connection", "release a connection" and the
execution of a statement on a connection, and the pool is observed through what
has been invoked on it: the number of `Close`, `Acquire` and `Release` calls,
the statements passed to `Exec`, and the statements and keys passed to
`QueryRow`, oldest first. -/
structure Pool where
  closeCalls : Nat
  acquireCalls : Nat
  releaseCalls : Nat
  execLog : List String
  queryLog : List (String × String)
  deriving DecidableEq, Repr

/-- The pool operation `Close`, counted. -/
def Pool.Close (pool : Pool) : Pool :=
  { pool with closeCalls := pool.closeCalls + 1 }

/-- The struct `PgxPoolConfiguration`. -/
structure PgxPoolConfiguration where
  start : Int
  table : String

/-- The type `PgxPoolOption`, a function that changes the configuration. -/
abbrev PgxPoolOption := PgxPoolConfiguration → PgxPoolConfiguration

/-- The option `PgxPoolWithStart`, which sets the start number. -/
def PgxPoolWithStart (start : Int) : PgxPoolOption :=
  fun cfg => { cfg with start := start }

/-- The option `PgxPoolWithTable`, which sets the table name. -/
def PgxPoolWithTable (table : String) : PgxPoolOption :=
  fun cfg => { cfg with table := table }

/-- The struct `PgxPool` (the lock is not part of the sequential state). -/
structure PgxPool where
  start : Int
  table : String
  pool : Pool
  nextQuery : String
  nextNQuery : String
  lastQuery : String
  forwardQuery : String
  created : Bool
  closed : Bool
  deriving DecidableEq, Repr

/-- The constructor `NewPgxPool`: the configuration with the default table name,
changed by each option in turn; every other field has its zero value. -/
def NewPgxPool (pool : Pool) (opts : List PgxPoolOption) : PgxPool :=
  let cfg := opts.foldl (fun cfg opt => opt cfg) { start := 0, table := Table }
  { start := cfg.start, table := cfg.table, pool := pool,
    nextQuery := "", nextNQuery := "", lastQuery := "", forwardQuery := "",
    created := false, closed := false }

/-- The method `PgxPool.Close`, run by a single caller.  The first test of
`closed` is the one under the read lock, the second the one under the write
lock. -/
def PgxPool.Close (chain : PgxPool) : GoError × PgxPool :=
  if chain.closed then (none, chain)
  else
    if chain.closed then (none, chain)
    else (none, { chain with pool := chain.pool.Close, closed := true })

/-- The keychain's `Close` called `n` times in sequence: the errors returned,
oldest first, and the keychain left behind. -/
def PgxPool.closeRun (chain : PgxPool) : Nat → List GoError × PgxPool
  | 0 => ([], chain)
  | n + 1 =>
    let r := chain.Close
    let rest := r.2.closeRun n
    (r.1 :: rest.1, rest.2)

/-! ## psql.go and the remote operations of pgx_pool.go -/

/-- The function `fmt.Errorf` with a format that ends in `: %w`: the error that
wraps `err` under the text before the colon. -/
def fmt.Errorf (msg : String) (err : Error) : Error :=
  .wrap msg err

/-- The test `errors.Is` on a non-nil error: the error is the target itself
(the same value, identity included), or it wraps an error that is. -/
def Error.Is : Error → Error → Bool
  | .new id msg, target => decide (Error.new id msg = target)
  | .wrap msg cause, target => decide (Error.wrap msg cause = target) || cause.Is target

/-- The function `errors.Is`; a nil error is no target's. -/
def errors.Is (err : GoError) (target : Error) : Bool :=
  match err with
  | none => false
  | some e => e.Is target

/-- The error `pgx.ErrNoRows` of the driver: one value, of identity 0; no other
error is it, whatever its text. -/
def pgx.ErrNoRows : Error := .new 0 "no rows in result set"

/-- The struct `PostgreSQL`, the data handed to the query templates. -/
structure PostgreSQL where
  Table : String
  deriving DecidableEq, Repr

/-- Modelled from the spec: what lies outside the repository and answers the
durable keychain.  The embedded query files `psql_last.sql` and
`psql_create_table.sql` are absent from the sources and are given by their
text; the template engine, the pool and the store may succeed or fail, and
their answers are an arbitrary oracle: `parse` tells whether a template text
parses, `executeTemplate` gives what a template writes for the data and
whether it fails, `acquire n` is the outcome of the pool's `Acquire` after `n`
earlier calls, `exec n sql` that of `Exec` of `sql` after `n` earlier
executions, and `scan n sql key` the value scanned and the error of
`QueryRow(sql, key).Scan` after `n` earlier queries. -/
structure Remote where
  postgreSQLLast : String
  PostgreSQLCreateTable : String
  parse : String → GoError
  executeTemplate : String → PostgreSQL → String × GoError
  acquire : Nat → GoError
  exec : Nat → String → GoError
  scan : Nat → String → String → Int × GoError

/-- The method `PostgreSQL.generate`: parse the template, then execute it on
`db`. -/
def PostgreSQL.generate (env : Remote) (db : PostgreSQL) (query : String) :
    String × GoError :=
  match env.parse query with
  | some err => ("", some (fmt.Errorf "parse template" err))
  | none =>
    match env.executeTemplate query db with
    | (_, some err) => ("", some (fmt.Errorf "execute template" err))
    | (buf, none) => (buf, none)

/-- The method `PostgreSQL.last`. -/
def PostgreSQL.last (env : Remote) (db : PostgreSQL) : String × GoError :=
  db.generate env env.postgreSQLLast

/-- The method `PostgreSQL.createTable`. -/
def PostgreSQL.createTable (env : Remote) (db : PostgreSQL) : String × GoError :=
  db.generate env env.PostgreSQLCreateTable

/-- The pool operation `Acquire`: the oracle's answer, and the call counted. -/
def Pool.Acquire (env : Remote) (pool : Pool) : GoError × Pool :=
  (env.acquire pool.acquireCalls, { pool with acquireCalls := pool.acquireCalls + 1 })

/-- The connection operation `Release`, counted. -/
def Pool.Release (pool : Pool) : Pool :=
  { pool with releaseCalls := pool.releaseCalls + 1 }

/-- The connection operation `Exec`: the oracle's answer, and the statement
logged. -/
def Pool.Exec (env : Remote) (pool : Pool) (sql : String) : GoError × Pool :=
  (env.exec pool.execLog.length sql, { pool with execLog := pool.execLog ++ [sql] })

/-- The connection operation `QueryRow(sql, key).Scan(&value)`: the oracle's
answer, and the query logged. -/
def Pool.QueryRowScan (env : Remote) (pool : Pool) (sql key : String) :
    (Int × GoError) × Pool :=
  (env.scan pool.queryLog.length sql key,
    { pool with queryLog := pool.queryLog ++ [(sql, key)] })

/-- The method `PgxPool.conn`: a nil error stands for the connection acquired. -/
def PgxPool.conn (env : Remote) (chain : PgxPool) : GoError × PgxPool :=
  match chain.pool.Acquire env with
  | (some err, pool) =>
    (some (fmt.Errorf "acquire connection" err), { chain with pool := pool })
  | (none, pool) => (none, { chain with pool := pool })

/-- The method `PgxPool.CreateTable`, run by a single caller.  The first test of
`created` is the one under the read lock, the second the one under the write
lock; the deferred `conn.Release()` runs on every return after the connection
was acquired. -/
def PgxPool.CreateTable (env : Remote) (chain : PgxPool) : GoError × PgxPool :=
  if chain.created then (none, chain)
  else
    if !chain.created then
      match (PostgreSQL.mk chain.table).createTable env with
      | (_, some err) =>
        (some (fmt.Errorf "generate the table creation query" err), chain)
      | (q, none) =>
        match chain.conn env with
        | (some err, chain) => (some err, chain)
        | (none, chain) =>
          match chain.pool.Exec env q with
          | (some err, pool) =>
            (some (fmt.Errorf "execute the table creation query" err),
              { chain with pool := pool.Release })
          | (none, pool) =>
            (none, { chain with pool := pool.Release, created := true })
    else (none, chain)

/-- The method `PgxPool.last`; the deferred `conn.Release()` runs on every
return after the connection was acquired. -/
def PgxPool.last (env : Remote) (chain : PgxPool) (key : String) :
    (Int × GoError) × PgxPool :=
  match chain.conn env with
  | (some err, chain) => ((0, some err), chain)
  | (none, chain) =>
    match chain.pool.QueryRowScan env chain.lastQuery key with
    | ((value, err), pool) =>
      if errors.Is err pgx.ErrNoRows then
        ((wrapInt64 (chain.start - 1), none), { chain with pool := pool.Release })
      else
        match err with
        | some e =>
          ((0, some (fmt.Errorf ("fetch last value " ++ key) e)),
            { chain with pool := pool.Release })
        | none => ((value, none), { chain with pool := pool.Release })

/-- The method `PgxPool.Last`, run by a single caller.  The first test of
`lastQuery` is the one under the read lock, the second the one under the write
lock. -/
def PgxPool.Last (env : Remote) (chain : PgxPool) (key : String) :
    (Int × GoError) × PgxPool :=
  if chain.lastQuery ≠ "" then chain.last env key
  else
    if chain.lastQuery = "" then
      match (PostgreSQL.mk chain.table).last env with
      | (_, some err) =>
        ((0, some (fmt.Errorf "generate the last value fetching query" err)), chain)
      | (q, none) => ({ chain with lastQuery := q }).last env key
    else chain.last env key

/-- A pool on which nothing has been invoked yet. -/
def Pool.fresh : Pool :=
  { closeCalls := 0, acquireCalls := 0, releaseCalls := 0, execLog := [], queryLog := [] }

/-- An oracle for examples: templates are written out as they are, connections
are always granted, the `n`-th `Exec` answers `execErr n`, and every scan
answers `scanned`. -/
def Remote.sample (execErr : Nat → GoError) (scanned : Int × GoError) : Remote :=
  { postgreSQLLast := "SELECT last", PostgreSQLCreateTable := "CREATE TABLE",
    parse := fun _ => none,
    executeTemplate := fun query _ => (query, none),
    acquire := fun _ => none,
    exec := fun n _ => execErr n,
    scan := fun _ _ _ => scanned }

/-- An oracle for examples, in which the first `Exec` fails and every later one
succeeds. -/
def Remote.execFailsFirst : Remote :=
  Remote.sample (fun n => if n = 0 then some (.new 1 "connection reset") else none) (0, none)

/-- An oracle for examples, in which everything succeeds and every scan answers
`scanned`. -/
def Remote.scanning (scanned : Int × GoError) : Remote :=
  Remote.sample (fun _ => none) scanned

/-! ## Concurrent callers of `Local.Next`

Each caller runs the body of `Local.Next` for the same key, one atomic action at
a time: a lock operation, a lookup in the table, an atomic increment of the
cell, or the creation of the cell.  A configuration records the shared keychain,
the state of its `sync.RWMutex`, and where every caller stands. -/

/-- The place of a caller in the body of `Local.Next`, named after the action it
has just completed. -/
inductive Pc where
  /-- Before `chain.RLock()`. -/
  | idle
  /-- After `chain.RLock()`, before the first lookup. -/
  | rlocked
  /-- The first lookup found the cell; before `atomic.AddInt64`. -/
  | rfound
  /-- After `atomic.AddInt64` gave `i`, before `chain.RUnlock()` and the return. -/
  | radded (i : Int)
  /-- The first lookup found no cell; before `chain.RUnlock()`. -/
  | rmissed
  /-- After `chain.RUnlock()`, before `chain.Lock()`. -/
  | waiting
  /-- After `chain.Lock()`, before the second lookup. -/
  | wlocked
  /-- The second lookup found the cell; before `atomic.AddInt64`. -/
  | wfound
  /-- The second lookup found no cell; before the cell is created. -/
  | wmissed
  /-- The return value `i` is fixed; before the deferred `chain.Unlock()`. -/
  | wdone (i : Int)
  /-- The call has returned `i`. -/
  | returned (i : Int)
  deriving DecidableEq, Repr

/-- The caller holds the read lock. -/
def Pc.reads : Pc → Bool
  | .rlocked | .rfound | .radded _ | .rmissed => true
  | _ => false

/-- The caller holds the write lock. -/
def Pc.writes : Pc → Bool
  | .wlocked | .wfound | .wmissed | .wdone _ => true
  | _ => false

/-- The value the caller has obtained, whether or not it has returned yet. -/
def Pc.held? : Pc → Option Int
  | .radded i | .wdone i | .returned i => some i
  | _ => none

/-- The value the caller's `Next` has returned. -/
def Pc.result? : Pc → Option Int
  | .returned i => some i
  | _ => none

/-- An upper bound on the number of actions the caller has still to take. -/
def Pc.togo : Pc → Nat
  | .idle => 7
  | .rlocked => 6
  | .rmissed => 5
  | .waiting => 4
  | .wlocked => 3
  | .wfound => 2
  | .wmissed => 2
  | .rfound => 2
  | .radded _ => 1
  | .wdone _ => 1
  | .returned _ => 0

/-- A configuration of the callers and the keychain they share.  The field
`readers` counts the holders of the read lock, `writer` tells whether the write
lock is held, and `creations` counts how often a cell has been created. -/
structure Config where
  chain : Local
  readers : Nat
  writer : Bool
  creations : Nat
  pcs : List Pc

/-- The callers' starting configuration: a newly constructed keychain with start
`s`, a free lock, and `M` callers that have not begun. -/
def Config.init (s : Int) (M : Nat) : Config :=
  { chain := NewLocal [LocalWithStart s], readers := 0, writer := false,
    creations := 0, pcs := List.replicate M .idle }

/-- One atomic action of caller `t` in `Next(key)`; `none` when there is no such
caller, when it has returned, or when it is blocked on the lock.  `RLock` is
granted when no caller holds the write lock, `Lock` when no caller holds either
lock.  The increment acts on the cell that the table holds for the key: `Next`
never replaces a cell, so this is the cell that the caller's lookup found. -/
def Config.step (key : String) (σ : Config) (t : Nat) : Option Config :=
  match σ.pcs[t]? with
  | none => none
  | some .idle =>
    if σ.writer then none
    else some { σ with readers := σ.readers + 1, pcs := σ.pcs.set t .rlocked }
  | some .rlocked =>
    match σ.chain.table key with
    | some _ => some { σ with pcs := σ.pcs.set t .rfound }
    | none => some { σ with pcs := σ.pcs.set t .rmissed }
  | some .rfound =>
    match σ.chain.table key with
    | some value =>
      let i := wrapInt64 (value + 1)
      some { σ with
        chain := { σ.chain with table := Function.update σ.chain.table key (some i) },
        pcs := σ.pcs.set t (.radded i) }
    | none => none
  | some (.radded i) =>
    some { σ with readers := σ.readers - 1, pcs := σ.pcs.set t (.returned i) }
  | some .rmissed =>
    some { σ with readers := σ.readers - 1, pcs := σ.pcs.set t .waiting }
  | some .waiting =>
    if σ.writer || σ.readers != 0 then none
    else some { σ with writer := true, pcs := σ.pcs.set t .wlocked }
  | some .wlocked =>
    match σ.chain.table key with
    | some _ => some { σ with pcs := σ.pcs.set t .wfound }
    | none => some { σ with pcs := σ.pcs.set t .wmissed }
  | some .wfound =>
    match σ.chain.table key with
    | some value =>
      let i := wrapInt64 (value + 1)
      some { σ with
        chain := { σ.chain with table := Function.update σ.chain.table key (some i) },
        pcs := σ.pcs.set t (.wdone i) }
    | none => none
  | some .wmissed =>
    let i := σ.chain.start
    some { σ with
      chain := { σ.chain with table := Function.update σ.chain.table key (some i) },
      creations := σ.creations + 1,
      pcs := σ.pcs.set t (.wdone i) }
  | some (.wdone i) =>
    some { σ with writer := false, pcs := σ.pcs.set t (.returned i) }
  | some (.returned _) => none

/-- An interleaving: the schedule names, action by action, the caller that is
to move; a caller that cannot move leaves the configuration as it is. -/
def Config.exec (key : String) (σ : Config) : List Nat → Config
  | [] => σ
  | t :: ts =>
    match σ.step key t with
    | some σ' => σ'.exec key ts
    | none => σ.exec key ts

/-- The values obtained so far, in the order of the callers. -/
def Config.held (σ : Config) : List Int := σ.pcs.filterMap Pc.held?

/-- The values returned so far, in the order of the callers. -/
def Config.results (σ : Config) : List Int := σ.pcs.filterMap Pc.result?

/-- An upper bound on the number of actions still to be taken by all callers. -/
def Config.togo (σ : Config) : Nat := (σ.pcs.map Pc.togo).sum

/-- The schedule in which the callers run one after the other, each taking the
seven actions that a call needs at most. -/
def sequentialSchedule (M : Nat) : List Nat :=
  (List.range M).flatMap (fun t => List.replicate 7 t)

/-- The lock's counters agree with the callers: `readers` is the number of
callers that hold the read lock, the write lock is held by exactly one caller
when `writer` is set and by none otherwise, and it excludes readers. -/
def LockOk (readers : Nat) (writer : Bool) (pcs : List Pc) : Prop :=
  readers = pcs.countP Pc.reads
    ∧ pcs.countP Pc.writes = (if writer then 1 else 0)
    ∧ (writer = true → readers = 0)

/-- The first `n` values of a sequence that begins at `s` and advances by the
`int64` addition of one: `s`, `s + 1`, ... reduced to `int64`. -/
def serial (s : Int) (n : Nat) : List Int :=
  (List.range n).map (fun (i : Nat) => wrapInt64 (s + (i : Int)))

/-- The cell of the key agrees with the callers.  Without a cell nobody has
obtained a value, found a cell or created one.  With a cell holding `v`, at
least one value has been obtained, the values obtained are, in some order, the
first values of the sequence from `s`, as many as have been obtained, `v` is the
last of them, exactly one creation has happened, and nobody is about to create
a cell. -/
def CellOk (s : Int) (cell : Option Int) (creations : Nat) (pcs : List Pc) : Prop :=
  match cell with
  | none =>
    pcs.filterMap Pc.held? = [] ∧ creations = 0
      ∧ ∀ pc ∈ pcs, pc ≠ .rfound ∧ pc ≠ .wfound
  | some v =>
    0 < (pcs.filterMap Pc.held?).length
      ∧ v = wrapInt64 (s + ((pcs.filterMap Pc.held?).length : Int) - 1)
      ∧ (pcs.filterMap Pc.held?).Perm (serial s (pcs.filterMap Pc.held?).length)
      ∧ creations = 1 ∧ ∀ pc ∈ pcs, pc ≠ .wmissed

/-- The invariant of the configurations that `M` callers of `Next(key)` reach
from a new keychain with start `s`. -/
structure Config.Inv (s : Int) (M : Nat) (key : String) (σ : Config) : Prop where
  start_eq : σ.chain.start = s
  length_eq : σ.pcs.length = M
  lock : LockOk σ.readers σ.writer σ.pcs
  cell : CellOk s (σ.chain.table key) σ.creations σ.pcs

/-! ## Arithmetic of `int64` -/

theorem wrapInt64_of_isInt64 {x : Int} (h : IsInt64 x) : wrapInt64 x = x := by
  unfold IsInt64 minInt64 maxInt64 at h
  unfold wrapInt64
  omega

theorem wrapInt64_succ {v : Int} (h : IsInt64 v) (hne : v ≠ maxInt64) :
    wrapInt64 (v + 1) = v + 1 := by
  unfold IsInt64 minInt64 maxInt64 at h
  unfold maxInt64 at hne
  unfold wrapInt64
  omega

theorem isInt64_succ {v : Int} (h : IsInt64 v) (hne : v ≠ maxInt64) :
    IsInt64 (v + 1) := by
  unfold IsInt64 minInt64 maxInt64 at *
  omega

/-! ## One call at a time -/

theorem NewLocal_start (s : Int) : (NewLocal [LocalWithStart s]).start = s := rfl

theorem NewLocal_table (opts : List LocalOption) (key : String) :
    (NewLocal opts).table key = none := rfl

theorem Next_of_some {chain : Local} {key : String} {v : Int}
    (h : chain.table key = some v) :
    chain.Next key = ((wrapInt64 (v + 1), none),
      { chain with table := Function.update chain.table key (some (wrapInt64 (v + 1))) }) := by
  simp [Local.Next, h]

theorem Next_of_none {chain : Local} {key : String} (h : chain.table key = none) :
    chain.Next key = ((chain.start, none),
      { chain with table := Function.update chain.table key (some chain.start) }) := by
  simp [Local.Next, h]

theorem Forward_of_ge {chain : Local} {key : String} {i target : Int}
    (h : chain.table key = some i) (hge : i ≥ target) :
    chain.Forward key target = ((i, none), chain) := by
  simp [Local.Forward, h, hge]

theorem Forward_of_lt {chain : Local} {key : String} {i target : Int}
    (h : chain.table key = some i) (hlt : i < target) :
    chain.Forward key target = ((target, none),
      { chain with table := Function.update chain.table key (some target) }) := by
  have : ¬ i ≥ target := by omega
  simp [Local.Forward, h, this]

theorem Forward_of_none {chain : Local} {key : String} {target : Int}
    (h : chain.table key = none) :
    chain.Forward key target = ((target, none),
      { chain with table := Function.update chain.table key (some target) }) := by
  simp [Local.Forward, h]

theorem Last_state (chain : Local) (key : String) : (chain.Last key).2 = chain := by
  unfold Local.Last
  cases chain.table key <;> rfl

theorem call_start (chain : Local) (c : Call) : (chain.call c).2.start = chain.start := by
  cases c with
  | next key =>
    cases h : chain.table key with
    | none => simp [Local.call, Next_of_none h]
    | some v => simp [Local.call, Next_of_some h]
  | last key => simp [Local.call, Last_state]
  | forward key target =>
    cases h : chain.table key with
    | none => simp [Local.call, Forward_of_none h]
    | some i =>
      by_cases hge : i ≥ target
      · simp [Local.call, Forward_of_ge h hge]
      · simp [Local.call, Forward_of_lt h (lt_of_not_ge hge)]

theorem call_table_of_ne (chain : Local) (c : Call) (key : String)
    (hne : ∀ k, c = .next k ∨ (∃ t, c = .forward k t) → k ≠ key) :
    (chain.call c).2.table key = chain.table key := by
  cases c with
  | next k =>
    have hk : key ≠ k := fun e => hne k (Or.inl rfl) e.symm
    cases h : chain.table k with
    | none => simp [Local.call, Next_of_none h, Function.update_noteq hk]
    | some v => simp [Local.call, Next_of_some h, Function.update_noteq hk]
  | last k => simp [Local.call, Last_state]
  | forward k target =>
    have hk : key ≠ k := fun e => hne k (Or.inr ⟨target, rfl⟩) e.symm
    cases h : chain.table k with
    | none => simp [Local.call, Forward_of_none h, Function.update_noteq hk]
    | some i =>
      by_cases hge : i ≥ target
      · simp [Local.call, Forward_of_ge h hge]
      · simp [Local.call, Forward_of_lt h (lt_of_not_ge hge), Function.update_noteq hk]

/-! ## Histories -/

theorem run_append (chain : Local) (cs ds : List Call) :
    chain.run (cs ++ ds) =
      ((chain.run cs).1 ++ ((chain.run cs).2.run ds).1, ((chain.run cs).2.run ds).2) := by
  induction cs generalizing chain with
  | nil => simp [Local.run]
  | cons c cs ih => simp [Local.run, ih]

theorem run_start (chain : Local) (cs : List Call) : (chain.run cs).2.start = chain.start := by
  induction cs generalizing chain with
  | nil => rfl
  | cons c cs ih => simp [Local.run, ih, call_start]

theorem noWrapOn_append (chain : Local) (key : String) (cs ds : List Call) :
    chain.noWrapOn key (cs ++ ds) =
      (chain.noWrapOn key cs && (chain.run cs).2.noWrapOn key ds) := by
  induction cs generalizing chain with
  | nil => simp [Local.noWrapOn, Local.run]
  | cons c cs ih => simp [Local.noWrapOn, Local.run, ih, Bool.and_assoc]

theorem returnedFor_append (key : String) (es fs : List (Call × Int × GoError)) :
    returnedFor key (es ++ fs) = returnedFor key es ++ returnedFor key fs := by
  induction es with
  | nil => simp [returnedFor]
  | cons e es ih =>
    obtain ⟨c, v, err⟩ := e
    cases c with
    | next k => by_cases hk : k = key <;> simp [returnedFor, hk, ih]
    | last k => simp [returnedFor, ih]
    | forward k t => by_cases hk : k = key <;> simp [returnedFor, hk, ih]

theorem tracks_call {chain : Local} {key : String} {vals : List Int} (c : Call)
    (hs : IsInt64 chain.start) (hc : c.WellTyped)
    (hw : chain.wrapsOn key c = false) (ht : chain.Tracks key vals) :
    (chain.call c).2.Tracks key (vals ++ returnedFor key [(c, (chain.call c).1)]) := by
  unfold Local.Tracks at ht ⊢
  cases c with
  | last k => simpa [Local.call, Last_state, returnedFor] using ht
  | next k =>
    by_cases hk : k = key
    · subst hk
      cases h : chain.table k with
      | none =>
        rw [h] at ht
        simp [Local.call, Next_of_none h, returnedFor, ht, hs]
      | some v =>
        rw [h] at ht
        obtain ⟨hv, _, hmax⟩ := ht
        have hne : v ≠ maxInt64 := by
          intro e
          simp [Local.wrapsOn, h, e] at hw
        simp only [Local.call, Next_of_some h, returnedFor, wrapInt64_succ hv hne,
          Function.update_same, if_true]
        refine ⟨isInt64_succ hv hne, by simp, ?_⟩
        intro u hu
        rcases List.mem_append.1 hu with hu | hu
        · have := hmax u hu; omega
        · simp at hu; omega
    · have hkey : key ≠ k := fun e => hk e.symm
      cases h : chain.table k with
      | none => simpa [Local.call, Next_of_none h, returnedFor, hk,
          Function.update_noteq hkey] using ht
      | some v => simpa [Local.call, Next_of_some h, returnedFor, hk,
          Function.update_noteq hkey] using ht
  | forward k target =>
    have htgt : IsInt64 target := hc
    by_cases hk : k = key
    · subst hk
      cases h : chain.table k with
      | none =>
        rw [h] at ht
        simp [Local.call, Forward_of_none h, returnedFor, ht, htgt]
      | some i =>
        rw [h] at ht
        obtain ⟨hv, hmem, hmax⟩ := ht
        by_cases hge : i ≥ target
        · simp only [Local.call, Forward_of_ge h hge, returnedFor, h, if_true]
          refine ⟨hv, by simp [hmem], ?_⟩
          intro u hu
          rcases List.mem_append.1 hu with hu | hu
          · exact hmax u hu
          · simp at hu; omega
        · simp only [Local.call, Forward_of_lt h (lt_of_not_ge hge), returnedFor,
            Function.update_same, if_true]
          refine ⟨htgt, by simp, ?_⟩
          intro u hu
          rcases List.mem_append.1 hu with hu | hu
          · have := hmax u hu; omega
          · simp at hu; omega
    · have hkey : key ≠ k := fun e => hk e.symm
      cases h : chain.table k with
      | none => simpa [Local.call, Forward_of_none h, returnedFor, hk,
          Function.update_noteq hkey] using ht
      | some i =>
        by_cases hge : i ≥ target
        · simpa [Local.call, Forward_of_ge h hge, returnedFor, hk] using ht
        · simpa [Local.call, Forward_of_lt h (lt_of_not_ge hge), returnedFor, hk,
            Function.update_noteq hkey] using ht

theorem tracks_run {key : String} (cs : List Call) :
    ∀ (chain : Local) (vals : List Int), IsInt64 chain.start →
      (∀ c ∈ cs, c.WellTyped) → chain.noWrapOn key cs = true → chain.Tracks key vals →
      (chain.run cs).2.Tracks key (vals ++ returnedFor key (chain.run cs).1) := by
  induction cs with
  | nil => intro chain vals _ _ _ ht; simpa [Local.run, returnedFor] using ht
  | cons c cs ih =>
    intro chain vals hs hty hnw ht
    simp only [Local.noWrapOn, Bool.and_eq_true, Bool.not_eq_true'] at hnw
    have h1 := tracks_call c hs (hty c (List.mem_cons_self _ _)) hnw.1 ht
    have h2 := ih (chain.call c).2 _ (by rw [call_start]; exact hs)
      (fun d hd => hty d (List.mem_cons_of_mem _ hd)) hnw.2 h1
    have e : returnedFor key ((c, (chain.call c).1) :: ((chain.call c).2.run cs).1)
        = returnedFor key [(c, (chain.call c).1)]
          ++ returnedFor key ((chain.call c).2.run cs).1 := by
      rw [← returnedFor_append]; rfl
    simpa [Local.run, e, List.append_assoc] using h2

theorem tracks_fresh {key : String} {s : Int} {cs : List Call} (hs : IsInt64 s)
    (hty : ∀ c ∈ cs, c.WellTyped)
    (hnw : (NewLocal [LocalWithStart s]).noWrapOn key cs = true) :
    ((NewLocal [LocalWithStart s]).run cs).2.Tracks key
      (returnedFor key ((NewLocal [LocalWithStart s]).run cs).1) := by
  have h := tracks_run cs (NewLocal [LocalWithStart s]) [] hs hty hnw
    (by simp [Local.Tracks, NewLocal_table])
  simpa using h

/-! ## The keychain contract on `Local` -/

/-- C1 (as stated, refuted): on a keychain started at the greatest `int64`, the
first `Next("k")` returns `2^63 - 1` and the second returns `-2^63`, which is
not greater than the value returned before. -/
theorem next_after_max_not_greater :
    returnedFor "k" ((NewLocal [LocalWithStart maxInt64]).run [.next "k"]).1 = [maxInt64]
      ∧ (((NewLocal [LocalWithStart maxInt64]).run [.next "k"]).2.Next "k").1
          = (minInt64, none)
      ∧ ¬ maxInt64 < minInt64 := by
  decide

/-- C1 (amended): in a sequential history on a newly constructed `Local`
keychain in which no `Next(key)` is issued while the cell of `key` holds
`2^63 - 1`, a call `Next(key)` returns a value strictly greater than every
value returned earlier in the history for `key` by `Next` or by `Forward`. -/
theorem next_exceeds_earlier (s : Int) (pre : List Call) (key : String)
    (hs : IsInt64 s) (hty : ∀ c ∈ pre, c.WellTyped)
    (hnw : (NewLocal [LocalWithStart s]).noWrapOn key (pre ++ [.next key]) = true) :
    ∀ v ∈ returnedFor key ((NewLocal [LocalWithStart s]).run pre).1,
      v < (((NewLocal [LocalWithStart s]).run pre).2.Next key).1.1 := by
  rw [noWrapOn_append] at hnw
  simp only [Bool.and_eq_true] at hnw
  obtain ⟨hpre, hlast⟩ := hnw
  have ht := tracks_fresh hs hty hpre
  unfold Local.Tracks at ht
  intro v hv
  cases h : ((NewLocal [LocalWithStart s]).run pre).2.table key with
  | none =>
    rw [h] at ht
    rw [ht] at hv
    simp at hv
  | some w =>
    rw [h] at ht
    obtain ⟨hw, _, hmax⟩ := ht
    have hne : w ≠ maxInt64 := by
      intro e
      simp [Local.noWrapOn, Local.wrapsOn, h, e] at hlast
    rw [Next_of_some h]
    simp only [wrapInt64_succ hw hne]
    have := hmax v hv
    omega

/-- C1 (amended), applied to the history `Next("k")`, `Forward("k", 10)`,
`Last("k")` on a keychain started at 1, in which no `Next("k")` wraps around:
the `Next("k")` that follows returns more than the 1 and the 10 returned
before. -/
theorem next_exceeds_earlier_witness :
    (NewLocal [LocalWithStart 1]).noWrapOn "k"
        ([.next "k", .forward "k" 10, .last "k"] ++ [.next "k"]) = true
      ∧ returnedFor "k"
          ((NewLocal [LocalWithStart 1]).run [.next "k", .forward "k" 10, .last "k"]).1
          = [1, 10]
      ∧ (1 : Int) < (((NewLocal [LocalWithStart 1]).run
          [.next "k", .forward "k" 10, .last "k"]).2.Next "k").1.1
      ∧ (10 : Int) < (((NewLocal [LocalWithStart 1]).run
          [.next "k", .forward "k" 10, .last "k"]).2.Next "k").1.1 :=
  ⟨by decide, by decide,
    next_exceeds_earlier 1 [.next "k", .forward "k" 10, .last "k"] "k"
      (by decide) (by decide) (by decide) 1 (by decide),
    next_exceeds_earlier 1 [.next "k", .forward "k" 10, .last "k"] "k"
      (by decide) (by decide) (by decide) 10 (by decide)⟩

theorem call_table_of_key_ne (chain : Local) (c : Call) (key : String)
    (hne : c.key ≠ key) : (chain.call c).2.table key = chain.table key := by
  apply call_table_of_ne
  intro k hk
  rcases hk with hk | ⟨t, hk⟩
  · subst hk; exact hne
  · subst hk; exact hne

theorem next_run_of_some (key : String) (calls : List Call) :
    ∀ (chain : Local) (v : Int), chain.table key = some v → IsInt64 v →
      (∀ c ∈ calls, c.key = key → c = .next key) →
      v + ((callsOn key calls).length : Int) ≤ maxInt64 →
      eventsOn key (chain.run calls).1 =
        (List.range (callsOn key calls).length).map
          (fun (i : Nat) => (Call.next key, v + 1 + (i : Int), (none : GoError))) := by
  induction calls with
  | nil => intro chain v _ _ _ _; simp [Local.run, eventsOn, callsOn]
  | cons c cs ih =>
    intro chain v h hv hkey hfit
    have hkey2 : ∀ d ∈ cs, d.key = key → d = .next key :=
      fun d hd => hkey d (List.mem_cons_of_mem _ hd)
    by_cases hc : c.key = key
    · have hcn : c = .next key := hkey c (List.mem_cons_self _ _) hc
      subst hcn
      have hlen : (callsOn key (Call.next key :: cs)).length
          = (callsOn key cs).length + 1 := by
        simp [callsOn, Call.key]
      rw [hlen] at hfit ⊢
      have hne : v ≠ maxInt64 := by
        intro e; rw [e] at hfit; push_cast at hfit; omega
      have hfit2 : v + 1 + ((callsOn key cs).length : Int) ≤ maxInt64 := by
        push_cast at hfit; omega
      have step := ih (chain.Next key).2 (v + 1)
        (by simp [Next_of_some h, wrapInt64_succ hv hne]) (isInt64_succ hv hne) hkey2 hfit2
      have hev : eventsOn key (chain.run (Call.next key :: cs)).1
          = (Call.next key, (chain.Next key).1)
            :: eventsOn key ((chain.Next key).2.run cs).1 := by
        simp [eventsOn, Local.run, Local.call, Call.key]
      rw [hev, step, List.range_succ_eq_map, List.map_cons, List.map_map]
      simp only [Next_of_some h, wrapInt64_succ hv hne]
      simp [Function.comp_def, add_assoc, add_comm]
      intro a _
      omega
    · have hlen : (callsOn key (c :: cs)).length = (callsOn key cs).length := by
        simp [callsOn, hc]
      rw [hlen] at hfit ⊢
      have htab : (chain.call c).2.table key = some v := by
        rw [call_table_of_key_ne chain c key hc]; exact h
      have step := ih (chain.call c).2 v htab hv hkey2 hfit
      have hev : eventsOn key (chain.run (c :: cs)).1
          = eventsOn key ((chain.call c).2.run cs).1 := by
        simp [eventsOn, Local.run, hc]
      rw [hev, step]

theorem next_run_of_none (key : String) (calls : List Call) :
    ∀ (chain : Local), chain.table key = none → IsInt64 chain.start →
      (∀ c ∈ calls, c.key = key → c = .next key) →
      chain.start + ((callsOn key calls).length : Int) - 1 ≤ maxInt64 →
      eventsOn key (chain.run calls).1 =
        (List.range (callsOn key calls).length).map
          (fun (i : Nat) => (Call.next key, chain.start + (i : Int), (none : GoError))) := by
  induction calls with
  | nil => intro chain _ _ _ _; simp [Local.run, eventsOn, callsOn]
  | cons c cs ih =>
    intro chain h hs hkey hfit
    have hkey2 : ∀ d ∈ cs, d.key = key → d = .next key :=
      fun d hd => hkey d (List.mem_cons_of_mem _ hd)
    by_cases hc : c.key = key
    · have hcn : c = .next key := hkey c (List.mem_cons_self _ _) hc
      subst hcn
      have hlen : (callsOn key (Call.next key :: cs)).length
          = (callsOn key cs).length + 1 := by
        simp [callsOn, Call.key]
      rw [hlen] at hfit ⊢
      have hfit2 : chain.start + ((callsOn key cs).length : Int) ≤ maxInt64 := by
        push_cast at hfit; omega
      have step := next_run_of_some key cs (chain.Next key).2 chain.start
        (by simp [Next_of_none h]) hs hkey2 hfit2
      have hev : eventsOn key (chain.run (Call.next key :: cs)).1
          = (Call.next key, (chain.Next key).1)
            :: eventsOn key ((chain.Next key).2.run cs).1 := by
        simp [eventsOn, Local.run, Local.call, Call.key]
      rw [hev, step, List.range_succ_eq_map, List.map_cons, List.map_map]
      simp only [Next_of_none h]
      simp [Function.comp_def, add_assoc, add_comm]
      intro a _
      omega
    · have hlen : (callsOn key (c :: cs)).length = (callsOn key cs).length := by
        simp [callsOn, hc]
      rw [hlen] at hfit ⊢
      have htab : (chain.call c).2.table key = none := by
        rw [call_table_of_key_ne chain c key hc]; exact h
      have hstart : (chain.call c).2.start = chain.start := call_start chain c
      have step := ih (chain.call c).2 htab (by rw [hstart]; exact hs) hkey2
        (by rw [hstart]; exact hfit)
      have hev : eventsOn key (chain.run (c :: cs)).1
          = eventsOn key ((chain.call c).2.run cs).1 := by
        simp [eventsOn, Local.run, hc]
      rw [hev, step, hstart]

/-- C2 (as stated, refuted): on a keychain started at `2^63 - 1`, two `Next("k")`
in a row on the unseen key return `2^63 - 1` and then `-2^63`; the second value
is not `start + 1`. -/
theorem next_twice_from_max :
    (NewLocal [LocalWithStart maxInt64]).table "k" = none
      ∧ ((NewLocal [LocalWithStart maxInt64]).run [.next "k", .next "k"]).1
          = [(.next "k", maxInt64, none), (.next "k", minInt64, none)]
      ∧ minInt64 ≠ maxInt64 + 1 := by
  decide

/-- C2 (amended): for a `Local` keychain with start `s` and a key without a
cell (never used by `Next` or `Forward`), take any sequence of calls in which
every call on `key` is a `Next(key)`, calls on other keys being free to come in
between, and let `N` be the number of those `Next(key)` calls; provided
`s + N - 1` does not exceed `2^63 - 1`, they return `s, s+1, ..., s+N-1` in that
order, each with a nil error; in particular the first of them returns `s`
itself. -/
theorem next_run_from_start (chain : Local) (key : String) (calls : List Call)
    (hunseen : chain.table key = none) (hs : IsInt64 chain.start)
    (hkey : ∀ c ∈ calls, c.key = key → c = .next key)
    (hfit : chain.start + ((callsOn key calls).length : Int) - 1 ≤ maxInt64) :
    eventsOn key (chain.run calls).1 =
      (List.range (callsOn key calls).length).map
        (fun (i : Nat) => (Call.next key, chain.start + (i : Int), (none : GoError))) :=
  next_run_of_none key calls chain hunseen hs hkey hfit

/-- C2 (amended), applied to three `Next("k")` on a new keychain started at 5,
with a `Next("j")`, a `Forward("j", 40)` and a `Last("j")` on another key in
between: the calls on `"k"` return 5, 6, 7. -/
theorem next_run_from_start_witness :
    callsOn "k" [.next "k", .next "j", .forward "j" 40, .next "k", .last "j", .next "k"]
        = [.next "k", .next "k", .next "k"]
      ∧ eventsOn "k" ((NewLocal [LocalWithStart 5]).run
          [.next "k", .next "j", .forward "j" 40, .next "k", .last "j", .next "k"]).1 =
        [(Call.next "k", 5, none), (Call.next "k", 6, none), (Call.next "k", 7, none)] :=
  ⟨by decide,
    next_run_from_start (NewLocal [LocalWithStart 5]) "k"
      [.next "k", .next "j", .forward "j" 40, .next "k", .last "j", .next "k"]
      rfl (by decide) (by decide) (by decide)⟩

/-- C3 (as stated, refuted): after `Forward("k", 2^63 - 1)` and `Next("k")` on a
keychain started at 1, the values returned for `"k"` are `2^63 - 1` and `-2^63`
and `Last("k")` returns `-2^63`, below a value already returned; and on a
keychain started at `-2^63`, `Last` of an unseen key returns `2^63 - 1`, which
is not `start - 1`. -/
theorem last_below_returned_after_wrap :
    returnedFor "k"
        ((NewLocal [LocalWithStart 1]).run [.forward "k" maxInt64, .next "k"]).1
          = [maxInt64, minInt64]
      ∧ (((NewLocal [LocalWithStart 1]).run
          [.forward "k" maxInt64, .next "k"]).2.Last "k").1 = (minInt64, none)
      ∧ minInt64 < maxInt64
      ∧ ((NewLocal [LocalWithStart minInt64]).Last "k").1 = (maxInt64, none)
      ∧ maxInt64 ≠ minInt64 - 1 := by
  decide

/-- C3 (amended): in a sequential history on a newly constructed `Local`
keychain with start `s` in which no `Next(key)` is issued while the cell of
`key` holds `2^63 - 1`: if neither `Next` nor `Forward` has returned a value for
`key`, then `Last(key)` returns `s - 1` with a nil error, provided `s` is above
`-2^63`; otherwise `Last(key)` returns, with a nil error, a value that was
returned for `key` by `Next` or `Forward` and that none of those values
exceeds. -/
theorem last_reflects_history (s : Int) (pre : List Call) (key : String)
    (hs : IsInt64 s) (hty : ∀ c ∈ pre, c.WellTyped)
    (hnw : (NewLocal [LocalWithStart s]).noWrapOn key pre = true) :
    (returnedFor key ((NewLocal [LocalWithStart s]).run pre).1 = [] → minInt64 < s →
        (((NewLocal [LocalWithStart s]).run pre).2.Last key).1 = (s - 1, none))
      ∧ (returnedFor key ((NewLocal [LocalWithStart s]).run pre).1 ≠ [] →
        (((NewLocal [LocalWithStart s]).run pre).2.Last key).1.2 = none
        ∧ (((NewLocal [LocalWithStart s]).run pre).2.Last key).1.1
            ∈ returnedFor key ((NewLocal [LocalWithStart s]).run pre).1
        ∧ ∀ u ∈ returnedFor key ((NewLocal [LocalWithStart s]).run pre).1,
            u ≤ (((NewLocal [LocalWithStart s]).run pre).2.Last key).1.1) := by
  have ht := tracks_fresh hs hty hnw
  have hstart : ((NewLocal [LocalWithStart s]).run pre).2.start = s := by
    rw [run_start]; rfl
  unfold Local.Tracks at ht
  cases h : ((NewLocal [LocalWithStart s]).run pre).2.table key with
  | none =>
    rw [h] at ht
    refine ⟨?_, fun hne => absurd ht hne⟩
    intro _ hmin
    have hr : IsInt64 (s - 1) := by
      unfold IsInt64 minInt64 maxInt64 at *
      omega
    simp [Local.Last, h, hstart, wrapInt64_of_isInt64 hr]
  | some w =>
    rw [h] at ht
    obtain ⟨_, hmem, hmax⟩ := ht
    refine ⟨?_, ?_⟩
    · intro hnil
      rw [hnil] at hmem
      simp at hmem
    · intro _
      simp only [Local.Last, h]
      exact ⟨trivial, hmem, hmax⟩

/-- C3 (amended), applied to the history `Next("k")`, `Forward("k", 10)`,
`Next("k")`, `Next("j")` on a keychain started at 1: `Last("z")` of the unseen
key `"z"` returns 0, and `Last("k")` returns a value returned for `"k"` that is
not below the 1, the 10 and the 11 returned for `"k"`. -/
theorem last_reflects_history_witness :
    returnedFor "k" ((NewLocal [LocalWithStart 1]).run
        [.next "k", .forward "k" 10, .next "k", .next "j"]).1 = [1, 10, 11]
      ∧ (((NewLocal [LocalWithStart 1]).run
          [.next "k", .forward "k" 10, .next "k", .next "j"]).2.Last "z").1 = (1 - 1, none)
      ∧ (((NewLocal [LocalWithStart 1]).run
          [.next "k", .forward "k" 10, .next "k", .next "j"]).2.Last "k").1.2 = none
      ∧ (((NewLocal [LocalWithStart 1]).run
          [.next "k", .forward "k" 10, .next "k", .next "j"]).2.Last "k").1.1
          ∈ returnedFor "k" ((NewLocal [LocalWithStart 1]).run
              [.next "k", .forward "k" 10, .next "k", .next "j"]).1
      ∧ (11 : Int) ≤ (((NewLocal [LocalWithStart 1]).run
          [.next "k", .forward "k" 10, .next "k", .next "j"]).2.Last "k").1.1 :=
  ⟨by decide,
    (last_reflects_history 1 [.next "k", .forward "k" 10, .next "k", .next "j"] "z"
      (by decide) (by decide) (by decide)).1 (by decide) (by decide),
    ((last_reflects_history 1 [.next "k", .forward "k" 10, .next "k", .next "j"] "k"
      (by decide) (by decide) (by decide)).2 (by decide)).1,
    ((last_reflects_history 1 [.next "k", .forward "k" 10, .next "k", .next "j"] "k"
      (by decide) (by decide) (by decide)).2 (by decide)).2.1,
    ((last_reflects_history 1 [.next "k", .forward "k" 10, .next "k", .next "j"] "k"
      (by decide) (by decide) (by decide)).2 (by decide)).2.2 11 (by decide)⟩

/-- C4: for every `Local` keychain, key and target, `Forward(key, target)`
returns a value at least `target` together with a nil error, and a `Last(key)`
issued right afterwards returns that same value with a nil error. -/
theorem forward_reaches_target (chain : Local) (key : String) (target : Int) :
    (chain.Forward key target).1.1 ≥ target
      ∧ (chain.Forward key target).1.2 = none
      ∧ ((chain.Forward key target).2.Last key).1
          = ((chain.Forward key target).1.1, none) := by
  cases h : chain.table key with
  | none => simp [Forward_of_none h, Local.Last]
  | some i =>
    by_cases hge : i ≥ target
    · simp [Forward_of_ge h hge, Local.Last, h, hge]
    · simp [Forward_of_lt h (lt_of_not_ge hge), Local.Last]

/-- C5 (the code at the failing input): after `Next("k")` returned 1 on a
keychain started at 1, `Forward("k", 1)` returns 1 again with a nil error,
which is not strictly greater than the value returned before, as the claim and
the doc comment of `Forward` demand. -/
theorem forward_repeats_value :
    returnedFor "k" ((NewLocal [LocalWithStart 1]).run [.next "k"]).1 = [1]
      ∧ (((NewLocal [LocalWithStart 1]).run [.next "k"]).2.Forward "k" 1).1 = (1, none)
      ∧ ¬ (1 : Int) < 1 := by
  decide

/-- C6 (as stated, refuted): once `Next("k")` on a keychain started at
`2^63 - 1` has put `2^63 - 1` into the cell of `"k"`, `Forward("k", 0)` returns
`2^63 - 1` and changes nothing, but the next `Next("k")` returns `-2^63`, not
the cell value plus one. -/
theorem next_after_noop_forward_at_max :
    ((NewLocal [LocalWithStart maxInt64]).Next "k").2.table "k" = some maxInt64
      ∧ maxInt64 ≥ 0
      ∧ (((NewLocal [LocalWithStart maxInt64]).Next "k").2.Forward "k" 0).1
          = (maxInt64, none)
      ∧ ((((NewLocal [LocalWithStart maxInt64]).Next "k").2.Forward "k" 0).2.Next "k").1
          = (minInt64, none)
      ∧ minInt64 ≠ maxInt64 + 1 := by
  decide

/-- C6 (amended): if the cell of `key` holds `c` with `c ≥ target`, then
`Forward(key, target)` returns `c` with a nil error and leaves the whole
keychain as it was (the cell of `key` and of every other key included), so that
the next `Next(key)` returns `c + 1` whenever `c` is an `int64` below
`2^63 - 1`. -/
theorem forward_noop_when_reached (chain : Local) (key : String) (target c : Int)
    (hcell : chain.table key = some c) (hge : c ≥ target) :
    (chain.Forward key target).1 = (c, none)
      ∧ (chain.Forward key target).2 = chain
      ∧ (IsInt64 c → c < maxInt64 →
          ((chain.Forward key target).2.Next key).1 = (c + 1, none)) := by
  rw [Forward_of_ge hcell hge]
  refine ⟨rfl, rfl, ?_⟩
  intro hc hlt
  have hne : c ≠ maxInt64 := by omega
  simp [Next_of_some hcell, wrapInt64_succ hc hne]

/-- C6 (amended), applied to `Forward("k", 3)` on a keychain whose cell of
`"k"` holds 5: it returns 5, changes nothing, and the next `Next("k")` returns
6. -/
theorem forward_noop_when_reached_witness :
    ((NewLocal [LocalWithStart 5]).Next "k").2.table "k" = some 5
      ∧ (5 : Int) ≥ 3
      ∧ (((NewLocal [LocalWithStart 5]).Next "k").2.Forward "k" 3).1 = (5, none)
      ∧ (((NewLocal [LocalWithStart 5]).Next "k").2.Forward "k" 3).2
          = ((NewLocal [LocalWithStart 5]).Next "k").2
      ∧ ((((NewLocal [LocalWithStart 5]).Next "k").2.Forward "k" 3).2.Next "k").1
          = (5 + 1, none) :=
  ⟨by decide, by decide,
    (forward_noop_when_reached ((NewLocal [LocalWithStart 5]).Next "k").2 "k" 3 5
      (by decide) (by decide)).1,
    (forward_noop_when_reached ((NewLocal [LocalWithStart 5]).Next "k").2 "k" 3 5
      (by decide) (by decide)).2.1,
    (forward_noop_when_reached ((NewLocal [LocalWithStart 5]).Next "k").2 "k" 3 5
      (by decide) (by decide)).2.2 (by decide) (by decide)⟩

/-- C7: `Last(key)` never mutates a `Local` keychain: for every keychain and
every key, seen or unseen, the keychain after the call is the keychain before
it (the table is the same, so no cell is created), and every later sequence of
`Next`, `Last` and `Forward` calls returns the same values and leaves the same
keychain whether or not the `Last` call was made. -/
theorem last_never_mutates (chain : Local) (key : String) :
    (chain.Last key).2 = chain
      ∧ (chain.Last key).2.table = chain.table
      ∧ ∀ calls : List Call, (chain.Last key).2.run calls = chain.run calls := by
  have h := Last_state chain key
  refine ⟨h, by rw [h], fun calls => by rw [h]⟩

/-- C8: on a `Local` keychain an operation on one key does not affect another:
for distinct keys `K` and `K'`, `Last(K')` after `Next(K)` and `Last(K')` after
`Forward(K, T)` return what `Last(K')` returned before the call. -/
theorem other_key_unaffected (chain : Local) (K K' : String) (T : Int)
    (hne : K ≠ K') :
    ((chain.Next K).2.Last K').1 = (chain.Last K').1
      ∧ ((chain.Forward K T).2.Last K').1 = (chain.Last K').1 := by
  have hn : (chain.Next K).2.table K' = chain.table K' :=
    call_table_of_ne chain (.next K) K' (by
      intro k hk
      rcases hk with hk | ⟨t, hk⟩
      · cases hk; exact hne
      · cases hk)
  have hf : (chain.Forward K T).2.table K' = chain.table K' :=
    call_table_of_ne chain (.forward K T) K' (by
      intro k hk
      rcases hk with hk | ⟨t, hk⟩
      · cases hk
      · cases hk; exact hne)
  have hns : (chain.Next K).2.start = chain.start := call_start chain (.next K)
  have hfs : (chain.Forward K T).2.start = chain.start := call_start chain (.forward K T)
  constructor
  · simp only [Local.Last, hn, hns]
    cases chain.table K' <;> rfl
  · simp only [Local.Last, hf, hfs]
    cases chain.table K' <;> rfl

/-- C8, applied to the keys `"a"` and `"b"` on a keychain started at 1 on which
`Next("b")` was called once. -/
theorem other_key_unaffected_witness :
    "a" ≠ "b"
      ∧ (((((NewLocal [LocalWithStart 1]).Next "b").2.Next "a").2.Last "b").1
          = (((NewLocal [LocalWithStart 1]).Next "b").2.Last "b").1
        ∧ ((((NewLocal [LocalWithStart 1]).Next "b").2.Forward "a" 9).2.Last "b").1
          = (((NewLocal [LocalWithStart 1]).Next "b").2.Last "b").1) :=
  ⟨by decide,
    other_key_unaffected ((NewLocal [LocalWithStart 1]).Next "b").2 "a" "b" 9 (by decide)⟩

/-! ## Close -/

theorem closeRun_errors (n : Nat) :
    ∀ chain : PgxPool, (chain.closeRun n).1 = List.replicate n none := by
  induction n with
  | zero => intro chain; rfl
  | succ n ih =>
    intro chain
    have h : chain.Close.1 = none := by
      unfold PgxPool.Close
      cases chain.closed <;> rfl
    simp [PgxPool.closeRun, ih, h, List.replicate_succ]

theorem closeRun_of_closed (n : Nat) :
    ∀ chain : PgxPool, chain.closed = true → (chain.closeRun n).2 = chain := by
  induction n with
  | zero => intro chain _; rfl
  | succ n ih =>
    intro chain hc
    have h : chain.Close = (none, chain) := by simp [PgxPool.Close, hc]
    simp [PgxPool.closeRun, h, ih chain hc]

theorem close_eq (chain : PgxPool) :
    chain.Close = (none, if chain.closed then chain
      else { chain with pool := chain.pool.Close, closed := true }) := by
  unfold PgxPool.Close
  cases chain.closed <;> rfl

theorem close_closed (chain : PgxPool) : (chain.Close).2.closed = true := by
  rw [close_eq]
  cases h : chain.closed <;> simp [h]

theorem close_closeCalls (chain : PgxPool) :
    (chain.Close).2.pool.closeCalls
      = chain.pool.closeCalls + (if chain.closed then 0 else 1) := by
  rw [close_eq]
  cases h : chain.closed <;> simp [Pool.Close]

theorem closeRun_succ (chain : PgxPool) (n : Nat) :
    (chain.closeRun (n + 1)).2 = (chain.Close).2 := by
  simp only [PgxPool.closeRun]
  exact closeRun_of_closed n _ (close_closed chain)

/-- C10: `Close` is idempotent.  On every `PgxPool` keychain, whatever its
state, any number of `Close` calls in sequence return nil every time; one
`Close` leaves the closed flag set and closes the underlying pool once when the
flag was unset and not at all when it was set, touching nothing else; a `Close`
after a `Close` changes nothing, so after any positive number of calls the
keychain is the one the first call left and the pool has been closed exactly
once by a keychain that was not closed before, as a newly constructed one is
not.  On a `Local` keychain `Close` returns nil and leaves the keychain
unchanged. -/
theorem close_idempotent (pool : Pool) (opts : List PgxPoolOption) (n : Nat)
    (chain : PgxPool) (loc : Local) :
    (chain.closeRun n).1 = List.replicate n none
      ∧ chain.Close = (none, if chain.closed then chain
          else { chain with pool := chain.pool.Close, closed := true })
      ∧ (chain.pool.Close).closeCalls = chain.pool.closeCalls + 1
      ∧ (chain.Close).2.closed = true
      ∧ (chain.Close).2.pool.closeCalls
          = chain.pool.closeCalls + (if chain.closed then 0 else 1)
      ∧ (chain.Close).2.Close = (none, (chain.Close).2)
      ∧ (chain.closeRun (n + 1)).2 = (chain.Close).2
      ∧ (chain.closeRun (n + 1)).2.pool.closeCalls
          = chain.pool.closeCalls + (if chain.closed then 0 else 1)
      ∧ (NewPgxPool pool opts).closed = false
      ∧ ((NewPgxPool pool opts).Close).1 = none
      ∧ ((NewPgxPool pool opts).Close).2.closed = true
      ∧ ((NewPgxPool pool opts).Close).2.pool.closeCalls = pool.closeCalls + 1
      ∧ ((NewPgxPool pool opts).closeRun (n + 1)).2.pool.closeCalls
          = pool.closeCalls + 1
      ∧ loc.Close = (none, loc) := by
  have hnew : (NewPgxPool pool opts).closed = false := rfl
  have hpool : (NewPgxPool pool opts).pool = pool := rfl
  refine ⟨closeRun_errors n chain, close_eq chain, rfl, close_closed chain,
    close_closeCalls chain, ?_, closeRun_succ chain n, ?_, hnew, ?_,
    close_closed _, ?_, ?_, rfl⟩
  · rw [close_eq (chain.Close).2, close_closed chain]
    rfl
  · rw [closeRun_succ]
    exact close_closeCalls chain
  · rw [close_eq]
  · rw [close_closeCalls, hnew, hpool]
    rfl
  · rw [closeRun_succ, close_closeCalls, hnew, hpool]
    rfl

/-! ## Lists of callers -/

theorem filterMap_set_same {α β : Type} (f : α → Option β) (b : α) :
    ∀ (l : List α) (t : Nat) (a : α), l[t]? = some a → f a = f b →
      (l.set t b).filterMap f = l.filterMap f := by
  intro l
  induction l with
  | nil => intro t a h; simp at h
  | cons x xs ih =>
    intro t a h hf
    cases t with
    | zero =>
      simp at h
      subst h
      simp [List.filterMap_cons, hf]
    | succ t =>
      simp at h
      simp [List.filterMap_cons, ih t a h hf]

theorem filterMap_set_new {α β : Type} (f : α → Option β) (b : α) (y : β) :
    ∀ (l : List α) (t : Nat) (a : α), l[t]? = some a → f a = none → f b = some y →
      ((l.set t b).filterMap f).Perm (y :: l.filterMap f) := by
  intro l
  induction l with
  | nil => intro t a h; simp at h
  | cons x xs ih =>
    intro t a h ha hb
    cases t with
    | zero =>
      simp at h
      subst h
      simp [List.filterMap_cons, ha, hb]
    | succ t =>
      simp at h
      have := ih t a h ha hb
      cases hx : f x with
      | none => simpa [List.filterMap_cons, hx] using this
      | some z =>
        simp only [List.set_cons_succ, List.filterMap_cons, hx]
        exact (List.Perm.cons z this).trans (List.Perm.swap y z _)

theorem filterMap_length_lt {α β : Type} (f : α → Option β) :
    ∀ (l : List α) (t : Nat) (a : α), l[t]? = some a → f a = none →
      (l.filterMap f).length < l.length := by
  intro l
  induction l with
  | nil => intro t a h; simp at h
  | cons x xs ih =>
    intro t a h ha
    cases t with
    | zero =>
      simp at h
      subst h
      have := List.length_filterMap_le f xs
      simp [List.filterMap_cons, ha]
      omega
    | succ t =>
      simp at h
      have := ih t a h ha
      cases hx : f x <;> simp [List.filterMap_cons, hx] <;> omega

theorem countP_set_add {α : Type} (p : α → Bool) (b : α) :
    ∀ (l : List α) (t : Nat) (a : α), l[t]? = some a →
      (l.set t b).countP p + (if p a then 1 else 0)
        = l.countP p + (if p b then 1 else 0) := by
  intro l
  induction l with
  | nil => intro t a h; simp at h
  | cons x xs ih =>
    intro t a h
    cases t with
    | zero =>
      simp at h
      subst h
      simp [List.countP_cons]
      omega
    | succ t =>
      simp at h
      have := ih t a h
      simp [List.countP_cons]
      omega

theorem sum_map_set_add {α : Type} (f : α → Nat) (b : α) :
    ∀ (l : List α) (t : Nat) (a : α), l[t]? = some a →
      ((l.set t b).map f).sum + f a = (l.map f).sum + f b := by
  intro l
  induction l with
  | nil => intro t a h; simp at h
  | cons x xs ih =>
    intro t a h
    cases t with
    | zero =>
      simp at h
      subst h
      simp
      omega
    | succ t =>
      simp at h
      have := ih t a h
      simp only [List.set_cons_succ, List.map_cons, List.sum_cons]
      omega

theorem only_holder {α : Type} (p : α → Bool) (b : α) :
    ∀ (l : List α) (t : Nat) (a : α), l[t]? = some a → p a = true → l.countP p ≤ 1 →
      ∀ c ∈ l.set t b, c = b ∨ p c = false := by
  intro l
  induction l with
  | nil => intro t a h; simp at h
  | cons x xs ih =>
    intro t a h ha hle c hc
    cases t with
    | zero =>
      simp at h
      subst h
      simp [List.countP_cons, ha] at hle
      simp at hc
      rcases hc with hc | hc
      · exact Or.inl hc
      · right
        have := hle c hc
        simpa using this
    | succ t =>
      simp at h
      have hpos : 0 < xs.countP p :=
        List.countP_pos_iff.2 ⟨a, List.getElem?_mem h, ha⟩
      simp only [List.countP_cons] at hle
      have hx : p x = false := by
        cases hpx : p x
        · rfl
        · rw [hpx] at hle
          simp only [if_true] at hle
          omega
      simp at hc
      rcases hc with hc | hc
      · right; rw [hc]; exact hx
      · refine ih t a h ha ?_ c hc
        rw [hx] at hle
        simpa using hle

theorem results_sublist_held (l : List Pc) :
    (l.filterMap Pc.result?).Sublist (l.filterMap Pc.held?) := by
  induction l with
  | nil => simp
  | cons x xs ih =>
    cases x <;> simp [List.filterMap_cons, Pc.result?, Pc.held?, ih]

/-! ## The invariant of the concurrent callers -/

theorem cellOk_move {s : Int} {cell : Option Int} {c : Nat} {pcs : List Pc} {t : Nat}
    {a : Pc} (b : Pc) (hpc : pcs[t]? = some a) (hheld : a.held? = b.held?)
    (hb1 : cell = none → b ≠ .rfound ∧ b ≠ .wfound)
    (hb2 : ∀ v, cell = some v → b ≠ .wmissed)
    (h : CellOk s cell c pcs) : CellOk s cell c (pcs.set t b) := by
  unfold CellOk at h ⊢
  rw [filterMap_set_same Pc.held? b pcs t a hpc hheld]
  cases cell with
  | none =>
    obtain ⟨h1, h2, h3⟩ := h
    refine ⟨h1, h2, ?_⟩
    intro pc hmem
    rcases List.mem_or_eq_of_mem_set hmem with hmem | rfl
    · exact h3 pc hmem
    · exact hb1 rfl
  | some v =>
    obtain ⟨h1, h2, h3, h5, h6⟩ := h
    refine ⟨h1, h2, h3, h5, ?_⟩
    intro pc hmem
    rcases List.mem_or_eq_of_mem_set hmem with hmem | rfl
    · exact h6 pc hmem
    · exact hb2 v rfl

theorem wrapInt64_wrap_succ (x : Int) : wrapInt64 (wrapInt64 x + 1) = wrapInt64 (x + 1) := by
  unfold wrapInt64
  omega

theorem serial_succ (s : Int) (n : Nat) :
    serial s (n + 1) = serial s n ++ [wrapInt64 (s + (n : Int))] := by
  simp [serial, List.range_succ]

theorem serial_nodup (s : Int) (n : Nat) (hn : n ≤ 18446744073709551616) :
    (serial s n).Nodup := by
  unfold serial
  refine List.Nodup.map_on ?_ (List.nodup_range n)
  intro i hi j hj hij
  rw [List.mem_range] at hi hj
  unfold wrapInt64 at hij
  omega

theorem serial_not_nodup (s : Int) (n : Nat) (hn : 18446744073709551616 < n) :
    ¬ (serial s n).Nodup := by
  intro h
  unfold serial at h
  have hinj := List.inj_on_of_nodup_map h
  have h0 : (0 : Nat) ∈ List.range n := List.mem_range.2 (by omega)
  have h1 : (18446744073709551616 : Nat) ∈ List.range n := List.mem_range.2 hn
  have := hinj h0 h1 (by unfold wrapInt64; omega)
  omega

theorem serial_bounds {s : Int} {n : Nat} (hs : IsInt64 s)
    (hfit : s + (n : Int) - 1 ≤ maxInt64) :
    ∀ v ∈ serial s n, s ≤ v ∧ v ≤ s + (n : Int) - 1 := by
  intro v hv
  unfold serial at hv
  obtain ⟨i, hi, rfl⟩ := List.mem_map.1 hv
  rw [List.mem_range] at hi
  unfold IsInt64 minInt64 maxInt64 at hs
  unfold maxInt64 at hfit
  unfold wrapInt64
  omega

theorem serial_sublist (s : Int) {n m : Nat} (h : n ≤ m) :
    (serial s n).Sublist (serial s m) := by
  unfold serial
  exact (List.range_sublist.2 h).map _

theorem cellOk_add {s v : Int} {c : Nat} {pcs : List Pc} {t : Nat} {a : Pc} (b : Pc)
    (hpc : pcs[t]? = some a) (ha : a.held? = none)
    (hb : b.held? = some (wrapInt64 (v + 1))) (hbw : b ≠ .wmissed)
    (h : CellOk s (some v) c pcs) :
    CellOk s (some (wrapInt64 (v + 1))) c (pcs.set t b) := by
  unfold CellOk at h ⊢
  obtain ⟨h1, h2, h3, h5, h6⟩ := h
  have hperm := filterMap_set_new Pc.held? b (wrapInt64 (v + 1)) pcs t a hpc ha hb
  have hlen : ((pcs.set t b).filterMap Pc.held?).length
      = (pcs.filterMap Pc.held?).length + 1 := by
    rw [hperm.length_eq]; rfl
  have hval : wrapInt64 (v + 1) = wrapInt64 (s + ((pcs.filterMap Pc.held?).length : Int)) := by
    rw [h2, wrapInt64_wrap_succ]
    congr 1
    omega
  rw [hlen]
  refine ⟨Nat.succ_pos _, ?_, ?_, h5, ?_⟩
  · rw [hval]
    congr 1
    push_cast
    omega
  · rw [serial_succ, ← hval]
    exact hperm.trans ((List.Perm.cons _ h3).trans (List.perm_append_singleton _ _).symm)
  · intro pc hmem
    rcases List.mem_or_eq_of_mem_set hmem with hmem | rfl
    · exact h6 pc hmem
    · exact hbw

theorem cellOk_create {s : Int} {c : Nat} {pcs : List Pc} {t : Nat} (hs : IsInt64 s)
    (hpc : pcs[t]? = some .wmissed) (hone : pcs.countP Pc.writes ≤ 1)
    (h : CellOk s none c pcs) :
    CellOk s (some s) (c + 1) (pcs.set t (.wdone s)) := by
  unfold CellOk at h ⊢
  obtain ⟨h1, h2, _⟩ := h
  have hperm := filterMap_set_new Pc.held? (.wdone s) s pcs t .wmissed hpc rfl rfl
  rw [h1] at hperm
  have hheld : (pcs.set t (.wdone s)).filterMap Pc.held? = [s] :=
    List.perm_singleton.1 hperm
  rw [hheld]
  have hw : wrapInt64 s = s := wrapInt64_of_isInt64 hs
  refine ⟨by simp, by simp [hw], by simp [serial, List.range_succ, hw], by omega, ?_⟩
  intro pc hmem
  rcases only_holder Pc.writes (.wdone s) pcs t .wmissed hpc rfl hone pc hmem with rfl | hw
  · simp
  · intro e
    rw [e] at hw
    simp [Pc.writes] at hw

theorem inv_init (s : Int) (M : Nat) (key : String) : (Config.init s M).Inv s M key := by
  refine ⟨rfl, by simp [Config.init], ⟨?_, ?_, ?_⟩, ?_⟩
  · simp [Config.init, List.countP_replicate, Pc.reads]
  · simp [Config.init, List.countP_replicate, Pc.writes]
  · simp [Config.init]
  · have hnone : (Config.init s M).chain.table key = none := rfl
    rw [hnone]
    unfold CellOk
    refine ⟨?_, rfl, ?_⟩
    · simp only [Config.init, List.filterMap_eq_nil_iff]
      intro pc hmem
      rw [List.eq_of_mem_replicate hmem]
      rfl
    · intro pc hmem
      rw [List.eq_of_mem_replicate hmem]
      simp

theorem ite_ff : (if false = true then 1 else 0 : Nat) = 0 := rfl

theorem ite_tt : (if true = true then 1 else 0 : Nat) = 1 := rfl

theorem inv_step {s : Int} {M : Nat} {key : String} {σ σ' : Config} {t : Nat}
    (hs : IsInt64 s)
    (hinv : σ.Inv s M key) (hstep : σ.step key t = some σ') : σ'.Inv s M key := by
  obtain ⟨h1, h2, ⟨hr, hw, hx⟩, hcell⟩ := hinv
  unfold Config.step at hstep
  cases hpc : σ.pcs[t]? with
  | none => rw [hpc] at hstep; simp at hstep
  | some pc =>
    rw [hpc] at hstep
    have hR := fun b => countP_set_add Pc.reads b σ.pcs t pc hpc
    have hW := fun b => countP_set_add Pc.writes b σ.pcs t pc hpc
    have hone : σ.pcs.countP Pc.writes ≤ 1 := by
      rw [hw]; split <;> omega
    cases pc with
    | idle =>
      simp only at hstep
      split at hstep
      · cases hstep
      · rename_i hwr
        cases hstep
        have hR' := hR .rlocked
        have hW' := hW .rlocked
        simp only [Pc.reads, Pc.writes] at hR' hW'
        refine ⟨h1, by simpa using h2, ⟨?_, ?_, ?_⟩,
          cellOk_move .rlocked hpc rfl (by simp) (by simp) hcell⟩
        · dsimp only; simp at hR'; omega
        · dsimp only; simp at hW'; rw [hW']; exact hw
        · dsimp only; intro h; exact absurd h hwr
    | rlocked =>
      simp only at hstep
      split at hstep
      · rename_i v hv
        cases hstep
        have hR' := hR .rfound
        have hW' := hW .rfound
        simp only [Pc.reads, Pc.writes] at hR' hW'
        refine ⟨h1, by simpa using h2, ⟨?_, ?_, ?_⟩,
          cellOk_move .rfound hpc rfl (by simp [hv]) (by simp) hcell⟩
        · dsimp only; simp at hR'; omega
        · dsimp only; simp at hW'; rw [hW']; exact hw
        · exact hx
      · rename_i hv
        cases hstep
        have hR' := hR .rmissed
        have hW' := hW .rmissed
        simp only [Pc.reads, Pc.writes] at hR' hW'
        refine ⟨h1, by simpa using h2, ⟨?_, ?_, ?_⟩,
          cellOk_move .rmissed hpc rfl (by simp) (by simp) hcell⟩
        · dsimp only; simp at hR'; omega
        · dsimp only; simp at hW'; rw [hW']; exact hw
        · exact hx
    | rfound =>
      simp only at hstep
      split at hstep
      · rename_i v hv
        cases hstep
        have hR' := hR (.radded (wrapInt64 (v + 1)))
        have hW' := hW (.radded (wrapInt64 (v + 1)))
        simp only [Pc.reads, Pc.writes] at hR' hW'
        rw [hv] at hcell
        refine ⟨h1, by simpa using h2, ⟨?_, ?_, ?_⟩, ?_⟩
        · dsimp only; simp at hR'; omega
        · dsimp only; simp at hW'; rw [hW']; exact hw
        · exact hx
        · dsimp only
          rw [Function.update_same]
          exact cellOk_add _ hpc rfl rfl (by simp) hcell
      · cases hstep
    | radded i =>
      simp only at hstep
      cases hstep
      have hR' := hR (.returned i)
      have hW' := hW (.returned i)
      simp only [Pc.reads, Pc.writes] at hR' hW'
      refine ⟨h1, by simpa using h2, ⟨?_, ?_, ?_⟩,
        cellOk_move (.returned i) hpc rfl (by simp) (by simp) hcell⟩
      · dsimp only; simp at hR'; omega
      · dsimp only; simp at hW'; rw [hW']; exact hw
      · dsimp only; intro h; have := hx h; omega
    | rmissed =>
      simp only at hstep
      cases hstep
      have hR' := hR .waiting
      have hW' := hW .waiting
      simp only [Pc.reads, Pc.writes] at hR' hW'
      refine ⟨h1, by simpa using h2, ⟨?_, ?_, ?_⟩,
        cellOk_move .waiting hpc rfl (by simp) (by simp) hcell⟩
      · dsimp only; simp at hR'; omega
      · dsimp only; simp at hW'; rw [hW']; exact hw
      · dsimp only; intro h; have := hx h; omega
    | waiting =>
      simp only at hstep
      split at hstep
      · cases hstep
      · rename_i hfree
        cases hstep
        have hR' := hR .wlocked
        have hW' := hW .wlocked
        simp only [Pc.reads, Pc.writes] at hR' hW'
        simp only [Bool.or_eq_true, bne_iff_ne, ne_eq, not_or, Bool.not_eq_true,
          Decidable.not_not] at hfree
        obtain ⟨hwf, hrz⟩ := hfree
        rw [hwf] at hw
        refine ⟨h1, by simpa using h2, ⟨?_, ?_, ?_⟩,
          cellOk_move .wlocked hpc rfl (by simp) (by simp) hcell⟩
        · dsimp only; simp at hR'; omega
        · dsimp only; simp only [ite_ff, ite_tt] at hW' hw ⊢; omega
        · dsimp only; intro _; exact hrz
    | wlocked =>
      simp only at hstep
      split at hstep
      · rename_i v hv
        cases hstep
        have hR' := hR .wfound
        have hW' := hW .wfound
        simp only [Pc.reads, Pc.writes] at hR' hW'
        refine ⟨h1, by simpa using h2, ⟨?_, ?_, ?_⟩,
          cellOk_move .wfound hpc rfl (by simp [hv]) (by simp) hcell⟩
        · dsimp only; simp at hR'; omega
        · dsimp only; simp at hW'; rw [hW']; exact hw
        · exact hx
      · rename_i hv
        cases hstep
        have hR' := hR .wmissed
        have hW' := hW .wmissed
        simp only [Pc.reads, Pc.writes] at hR' hW'
        refine ⟨h1, by simpa using h2, ⟨?_, ?_, ?_⟩,
          cellOk_move .wmissed hpc rfl (by simp) (by simp [hv]) hcell⟩
        · dsimp only; simp at hR'; omega
        · dsimp only; simp at hW'; rw [hW']; exact hw
        · exact hx
    | wfound =>
      simp only at hstep
      split at hstep
      · rename_i v hv
        cases hstep
        have hR' := hR (.wdone (wrapInt64 (v + 1)))
        have hW' := hW (.wdone (wrapInt64 (v + 1)))
        simp only [Pc.reads, Pc.writes] at hR' hW'
        rw [hv] at hcell
        refine ⟨h1, by simpa using h2, ⟨?_, ?_, ?_⟩, ?_⟩
        · dsimp only; simp at hR'; omega
        · dsimp only; simp at hW'; rw [hW']; exact hw
        · exact hx
        · dsimp only
          rw [Function.update_same]
          exact cellOk_add _ hpc rfl rfl (by simp) hcell
      · cases hstep
    | wmissed =>
      simp only at hstep
      cases hstep
      have hR' := hR (.wdone σ.chain.start)
      have hW' := hW (.wdone σ.chain.start)
      simp only [Pc.reads, Pc.writes] at hR' hW'
      have hnone : σ.chain.table key = none := by
        cases hv : σ.chain.table key with
        | none => rfl
        | some v =>
          rw [hv] at hcell
          exact absurd rfl (hcell.2.2.2.2 _ (List.getElem?_mem hpc))
      rw [hnone] at hcell
      refine ⟨h1, by simpa using h2, ⟨?_, ?_, ?_⟩, ?_⟩
      · dsimp only; simp at hR'; omega
      · dsimp only; simp at hW'; rw [hW']; exact hw
      · exact hx
      · dsimp only
        rw [Function.update_same, h1]
        exact cellOk_create hs hpc hone hcell
    | wdone i =>
      simp only at hstep
      cases hstep
      have hR' := hR (.returned i)
      have hW' := hW (.returned i)
      simp only [Pc.reads, Pc.writes] at hR' hW'
      refine ⟨h1, by simpa using h2, ⟨?_, ?_, ?_⟩,
        cellOk_move (.returned i) hpc rfl (by simp) (by simp) hcell⟩
      · dsimp only; simp at hR'; omega
      · dsimp only
        have hwt : σ.writer = true := by
          cases hwr : σ.writer
          · rw [hwr] at hw
            have := List.countP_pos_iff.2 ⟨_, List.getElem?_mem hpc, (rfl : Pc.writes (.wdone i) = true)⟩
            simp only [ite_ff] at hw
            omega
          · rfl
        rw [hwt] at hw
        simp only [ite_ff, ite_tt] at hW' hw ⊢
        omega
      · dsimp only; intro h; cases h
    | returned i =>
      simp only at hstep
      cases hstep

theorem inv_exec {s : Int} {M : Nat} {key : String} (hs : IsInt64 s)
    (sched : List Nat) :
    ∀ σ : Config, σ.Inv s M key → (σ.exec key sched).Inv s M key := by
  induction sched with
  | nil => intro σ h; exact h
  | cons t ts ih =>
    intro σ h
    unfold Config.exec
    cases hstep : σ.step key t with
    | none => exact ih σ h
    | some σ' => exact ih σ' (inv_step hs h hstep)

theorem togo_step {key : String} {σ σ' : Config} {t : Nat}
    (hstep : σ.step key t = some σ') : σ'.togo < σ.togo := by
  unfold Config.step at hstep
  unfold Config.togo
  cases hpc : σ.pcs[t]? with
  | none => rw [hpc] at hstep; simp at hstep
  | some pc =>
    rw [hpc] at hstep
    have hsum := fun b => sum_map_set_add Pc.togo b σ.pcs t pc hpc
    cases pc with
    | idle =>
      simp only at hstep
      split at hstep
      · cases hstep
      · cases hstep
        have := hsum .rlocked
        simp only [Pc.togo] at this
        dsimp only
        omega
    | rlocked =>
      simp only at hstep
      split at hstep
      · cases hstep
        have := hsum .rfound
        simp only [Pc.togo] at this
        dsimp only
        omega
      · cases hstep
        have := hsum .rmissed
        simp only [Pc.togo] at this
        dsimp only
        omega
    | rfound =>
      simp only at hstep
      split at hstep
      · rename_i v hv
        cases hstep
        have := hsum (.radded (wrapInt64 (v + 1)))
        simp only [Pc.togo] at this
        dsimp only
        omega
      · cases hstep
    | radded i =>
      simp only at hstep
      cases hstep
      have := hsum (.returned i)
      simp only [Pc.togo] at this
      dsimp only
      omega
    | rmissed =>
      simp only at hstep
      cases hstep
      have := hsum .waiting
      simp only [Pc.togo] at this
      dsimp only
      omega
    | waiting =>
      simp only at hstep
      split at hstep
      · cases hstep
      · cases hstep
        have := hsum .wlocked
        simp only [Pc.togo] at this
        dsimp only
        omega
    | wlocked =>
      simp only at hstep
      split at hstep
      · cases hstep
        have := hsum .wfound
        simp only [Pc.togo] at this
        dsimp only
        omega
      · cases hstep
        have := hsum .wmissed
        simp only [Pc.togo] at this
        dsimp only
        omega
    | wfound =>
      simp only at hstep
      split at hstep
      · rename_i v hv
        cases hstep
        have := hsum (.wdone (wrapInt64 (v + 1)))
        simp only [Pc.togo] at this
        dsimp only
        omega
      · cases hstep
    | wmissed =>
      simp only at hstep
      cases hstep
      have := hsum (.wdone σ.chain.start)
      simp only [Pc.togo] at this
      dsimp only
      omega
    | wdone i =>
      simp only at hstep
      cases hstep
      have := hsum (.returned i)
      simp only [Pc.togo] at this
      dsimp only
      omega
    | returned i =>
      simp only at hstep
      cases hstep

theorem cell_of_found {s : Int} {M : Nat} {key : String} {σ : Config} {pc : Pc}
    (hinv : σ.Inv s M key) (hmem : pc ∈ σ.pcs) (hpc : pc = .rfound ∨ pc = .wfound) :
    ∃ v, σ.chain.table key = some v := by
  cases hv : σ.chain.table key with
  | some v => exact ⟨v, rfl⟩
  | none =>
    have hcell := hinv.cell
    rw [hv] at hcell
    have := hcell.2.2 pc hmem
    rcases hpc with h | h
    · exact absurd h this.1
    · exact absurd h this.2

theorem progress {s : Int} {M : Nat} {key : String} {σ : Config}
    (hinv : σ.Inv s M key) :
    (∀ pc ∈ σ.pcs, ∃ i, pc = .returned i) ∨ ∃ t σ', σ.step key t = some σ' := by
  obtain ⟨hr, hw, hx⟩ := hinv.lock
  by_cases hbusy : ∃ pc ∈ σ.pcs, pc.reads = true ∨ pc.writes = true
  · right
    obtain ⟨pc, hmem, hpc⟩ := hbusy
    obtain ⟨t, ht⟩ := List.mem_iff_getElem?.1 hmem
    refine ⟨t, ?_⟩
    unfold Config.step
    rw [ht]
    cases pc with
    | idle => simp [Pc.reads, Pc.writes] at hpc
    | waiting => simp [Pc.reads, Pc.writes] at hpc
    | returned i => simp [Pc.reads, Pc.writes] at hpc
    | rlocked => cases σ.chain.table key <;> exact ⟨_, rfl⟩
    | wlocked => cases σ.chain.table key <;> exact ⟨_, rfl⟩
    | rfound =>
      obtain ⟨v, hv⟩ := cell_of_found hinv hmem (Or.inl rfl)
      simp only [hv]
      exact ⟨_, rfl⟩
    | wfound =>
      obtain ⟨v, hv⟩ := cell_of_found hinv hmem (Or.inr rfl)
      simp only [hv]
      exact ⟨_, rfl⟩
    | radded i => exact ⟨_, rfl⟩
    | rmissed => exact ⟨_, rfl⟩
    | wmissed => exact ⟨_, rfl⟩
    | wdone i => exact ⟨_, rfl⟩
  · have hfree : ∀ pc ∈ σ.pcs, pc.reads = false ∧ pc.writes = false := by
      intro pc hmem
      constructor
      · cases h : pc.reads
        · rfl
        · exact absurd ⟨pc, hmem, Or.inl h⟩ hbusy
      · cases h : pc.writes
        · rfl
        · exact absurd ⟨pc, hmem, Or.inr h⟩ hbusy
    have hr0 : σ.readers = 0 := by
      rw [hr, List.countP_eq_zero]
      intro pc hmem
      simp [(hfree pc hmem).1]
    have hw0 : σ.writer = false := by
      cases hwr : σ.writer
      · rfl
      · rw [hwr] at hw
        have h0 : σ.pcs.countP Pc.writes = 0 := by
          rw [List.countP_eq_zero]
          intro pc hmem
          simp [(hfree pc hmem).2]
        exfalso
        simp only [if_true] at hw
        omega
    by_cases hall : ∀ pc ∈ σ.pcs, ∃ i, pc = .returned i
    · exact Or.inl hall
    · right
      simp only [not_forall] at hall
      obtain ⟨pc, hmem, hnot⟩ := hall
      obtain ⟨t, ht⟩ := List.mem_iff_getElem?.1 hmem
      have hf := hfree pc hmem
      refine ⟨t, ?_⟩
      unfold Config.step
      rw [ht]
      cases pc with
      | idle => simp [hw0]
      | waiting => simp [hw0, hr0]
      | returned i => exact absurd ⟨i, rfl⟩ hnot
      | rlocked => simp [Pc.reads] at hf
      | rfound => simp [Pc.reads] at hf
      | radded i => simp [Pc.reads] at hf
      | rmissed => simp [Pc.reads] at hf
      | wlocked => simp [Pc.writes] at hf
      | wfound => simp [Pc.writes] at hf
      | wmissed => simp [Pc.writes] at hf
      | wdone i => simp [Pc.writes] at hf

theorem results_length_of_all_returned (l : List Pc)
    (h : ∀ pc ∈ l, ∃ i, pc = .returned i) : (l.filterMap Pc.result?).length = l.length := by
  induction l with
  | nil => rfl
  | cons x xs ih =>
    obtain ⟨i, rfl⟩ := h x (List.mem_cons_self _ _)
    have := ih (fun pc hpc => h pc (List.mem_cons_of_mem _ hpc))
    simp [List.filterMap_cons, Pc.result?, this]

theorem results_eq_held_of_all_returned (l : List Pc)
    (h : ∀ pc ∈ l, ∃ i, pc = .returned i) : l.filterMap Pc.result? = l.filterMap Pc.held? := by
  induction l with
  | nil => rfl
  | cons x xs ih =>
    obtain ⟨i, rfl⟩ := h x (List.mem_cons_self _ _)
    have := ih (fun pc hpc => h pc (List.mem_cons_of_mem _ hpc))
    simp [List.filterMap_cons, Pc.result?, Pc.held?, this]

theorem held_of_inv {s : Int} {M : Nat} {key : String} {σ : Config}
    (hinv : σ.Inv s M key) :
    σ.held.length ≤ M ∧ σ.held.Perm (serial s σ.held.length)
      ∧ σ.creations ≤ 1 ∧ (σ.held ≠ [] → σ.creations = 1) := by
  have hlen := List.length_filterMap_le Pc.held? σ.pcs
  have hM := hinv.length_eq
  have hcell := hinv.cell
  unfold CellOk at hcell
  unfold Config.held
  cases hv : σ.chain.table key with
  | none =>
    rw [hv] at hcell
    obtain ⟨h1, h2, _⟩ := hcell
    rw [h1]
    refine ⟨Nat.zero_le _, ?_, by omega, by simp⟩
    simp [serial]
  | some v =>
    rw [hv] at hcell
    obtain ⟨_, _, h3, h5, _⟩ := hcell
    exact ⟨by omega, h3, by omega, fun _ => h5⟩

theorem results_of_inv {s : Int} {M : Nat} {key : String} {σ : Config} (hs : IsInt64 s)
    (hinv : σ.Inv s M key) :
    σ.results.Subperm (serial s M)
      ∧ (M ≤ 18446744073709551616 → σ.results.Nodup)
      ∧ (s + (M : Int) - 1 ≤ maxInt64 → ∀ v ∈ σ.results, s ≤ v ∧ v ≤ s + (M : Int) - 1)
      ∧ σ.creations ≤ 1 ∧ (σ.results ≠ [] → σ.creations = 1) := by
  have hsub : σ.results.Sublist σ.held := results_sublist_held σ.pcs
  obtain ⟨hlen, hperm, hc, hc1⟩ := held_of_inv hinv
  have hsp : σ.results.Subperm (serial s M) :=
    (hsub.subperm.trans hperm.subperm).trans (serial_sublist s hlen).subperm
  refine ⟨hsp, ?_, ?_, hc, ?_⟩
  · intro hM
    exact (hperm.nodup_iff.2 (serial_nodup s _ (le_trans hlen hM))).sublist hsub
  · intro hfit v hv
    exact serial_bounds hs hfit v (hsp.subset hv)
  · intro hne
    apply hc1
    intro hnil
    rw [hnil] at hsub
    exact hne (List.sublist_nil.1 hsub)

theorem results_of_all_returned {s : Int} {M : Nat} {key : String} {σ : Config}
    (hinv : σ.Inv s M key) (hall : ∀ pc ∈ σ.pcs, ∃ i, pc = .returned i) :
    σ.results.length = M ∧ σ.results.Perm (serial s M)
      ∧ (σ.results.Nodup ↔ M ≤ 18446744073709551616) := by
  have hlen : σ.results.length = M := by
    have := results_length_of_all_returned _ hall
    rw [hinv.length_eq] at this
    exact this
  have heq : σ.results = σ.held := results_eq_held_of_all_returned _ hall
  have hperm : σ.results.Perm (serial s M) := by
    have := (held_of_inv hinv).2.1
    rw [← heq, hlen] at this
    exact this
  refine ⟨hlen, hperm, ?_⟩
  rw [hperm.nodup_iff]
  constructor
  · intro hnd
    by_contra hM
    exact serial_not_nodup s M (by omega) hnd
  · exact serial_nodup s M

theorem togo_init (s : Int) (M : Nat) : (Config.init s M).togo = 7 * M := by
  simp [Config.togo, Config.init, Pc.togo, Nat.mul_comm]

/-- C9 (as stated, refuted): two callers of `Next("k")` on a new keychain
started at `2^63 - 1`, scheduled one after the other, receive `2^63 - 1` and
`-2^63`; the second value is below the start. -/
theorem concurrent_next_below_start :
    ((Config.init maxInt64 2).exec "k" (sequentialSchedule 2)).pcs
        = [.returned maxInt64, .returned minInt64]
      ∧ ((Config.init maxInt64 2).exec "k" (sequentialSchedule 2)).results
        = [maxInt64, minInt64]
      ∧ ¬ minInt64 ≥ maxInt64 := by
  decide

/-- C9 (amended): when `M` concurrent callers each call `Next(key)` once on a
newly constructed `Local` keychain with start `s`, then under every
interleaving of their atomic actions (lock operations, table lookups, atomic
increments and the creation of the cell) the cell has been created at most
once, and exactly once as soon as a caller has returned; the values returned so
far are, up to order, among the first `M` values of the sequence `s`, `s + 1`,
... reduced to `int64`, and pairwise distinct as long as `M` does not exceed
the `2^64` values an `int64` has; when all callers have returned there are `M`
values, they are exactly those `M` values of the sequence, and they are
pairwise distinct if and only if `M` does not exceed `2^64`; unless all callers
have returned some caller can act; and every action lowers the bound on the
actions still to come, which starts at `7 * M`.  Only the bound from below
needs more: when `s + M - 1` does not exceed `2^63 - 1`, every value returned
lies between `s` and `s + M - 1`. -/
theorem concurrent_next_distinct (s : Int) (M : Nat) (key : String) (sched : List Nat)
    (hs : IsInt64 s) :
    ((Config.init s M).exec key sched).creations ≤ 1
      ∧ (((Config.init s M).exec key sched).results ≠ [] →
          ((Config.init s M).exec key sched).creations = 1)
      ∧ ((Config.init s M).exec key sched).results.Subperm (serial s M)
      ∧ (M ≤ 18446744073709551616 →
          ((Config.init s M).exec key sched).results.Nodup)
      ∧ (s + (M : Int) - 1 ≤ maxInt64 →
          ∀ v ∈ ((Config.init s M).exec key sched).results, s ≤ v ∧ v ≤ s + (M : Int) - 1)
      ∧ ((∀ pc ∈ ((Config.init s M).exec key sched).pcs, ∃ i, pc = .returned i) →
          ((Config.init s M).exec key sched).results.length = M
            ∧ ((Config.init s M).exec key sched).results.Perm (serial s M)
            ∧ (((Config.init s M).exec key sched).results.Nodup
                ↔ M ≤ 18446744073709551616))
      ∧ ((∀ pc ∈ ((Config.init s M).exec key sched).pcs, ∃ i, pc = .returned i)
          ∨ ∃ t σ', ((Config.init s M).exec key sched).step key t = some σ')
      ∧ (∀ t σ', ((Config.init s M).exec key sched).step key t = some σ' →
          σ'.togo < ((Config.init s M).exec key sched).togo)
      ∧ (Config.init s M).togo = 7 * M := by
  have hinv := inv_exec hs sched (Config.init s M) (inv_init s M key)
  obtain ⟨h1, h2, h3, h4, h5⟩ := results_of_inv hs hinv
  exact ⟨h4, h5, h1, h2, h3, results_of_all_returned hinv, progress hinv,
    fun t σ' h => togo_step h, togo_init s M⟩

/-- C9 (amended), applied to three callers on a keychain started at 1 under an
interleaving in which all three miss the cell under the read lock before any of
them takes the write lock: they return 1, 2 and 3, pairwise distinct and within
bounds, and the cell was created once.  Applied to two callers on a keychain
started at `2^63 - 1`, where the second value wraps around: the two values are
still pairwise distinct and the cell was still created once. -/
theorem concurrent_next_distinct_witness :
    ((Config.init 1 3).exec "k"
        [0, 1, 2, 0, 1, 2, 0, 1, 2, 0, 0, 0, 0, 1, 1, 1, 1, 2, 2, 2, 2]).pcs
        = [.returned 1, .returned 2, .returned 3]
      ∧ ((Config.init 1 3).exec "k"
          [0, 1, 2, 0, 1, 2, 0, 1, 2, 0, 0, 0, 0, 1, 1, 1, 1, 2, 2, 2, 2]).results.Nodup
      ∧ ((1 : Int) ≤ 3 ∧ (3 : Int) ≤ 1 + ((3 : Nat) : Int) - 1)
      ∧ ((Config.init 1 3).exec "k"
          [0, 1, 2, 0, 1, 2, 0, 1, 2, 0, 0, 0, 0, 1, 1, 1, 1, 2, 2, 2, 2]).creations = 1
      ∧ ((Config.init 1 3).exec "k"
          [0, 1, 2, 0, 1, 2, 0, 1, 2, 0, 0, 0, 0, 1, 1, 1, 1, 2, 2, 2, 2]).results.length
          = 3
      ∧ ((Config.init maxInt64 2).exec "k" (sequentialSchedule 2)).results
          = [maxInt64, minInt64]
      ∧ ((Config.init maxInt64 2).exec "k" (sequentialSchedule 2)).results.Nodup
      ∧ ((Config.init maxInt64 2).exec "k" (sequentialSchedule 2)).creations = 1 :=
  ⟨by decide,
    (concurrent_next_distinct 1 3 "k"
      [0, 1, 2, 0, 1, 2, 0, 1, 2, 0, 0, 0, 0, 1, 1, 1, 1, 2, 2, 2, 2]
      (by decide)).2.2.2.1 (by decide),
    (concurrent_next_distinct 1 3 "k"
      [0, 1, 2, 0, 1, 2, 0, 1, 2, 0, 0, 0, 0, 1, 1, 1, 1, 2, 2, 2, 2]
      (by decide)).2.2.2.2.1 (by decide) 3 (by decide),
    (concurrent_next_distinct 1 3 "k"
      [0, 1, 2, 0, 1, 2, 0, 1, 2, 0, 0, 0, 0, 1, 1, 1, 1, 2, 2, 2, 2]
      (by decide)).2.1 (by decide),
    ((concurrent_next_distinct 1 3 "k"
      [0, 1, 2, 0, 1, 2, 0, 1, 2, 0, 0, 0, 0, 1, 1, 1, 1, 2, 2, 2, 2]
      (by decide)).2.2.2.2.2.1 (by
        intro pc hpc
        have hpcs : ((Config.init 1 3).exec "k"
            [0, 1, 2, 0, 1, 2, 0, 1, 2, 0, 0, 0, 0, 1, 1, 1, 1, 2, 2, 2, 2]).pcs
            = [.returned 1, .returned 2, .returned 3] := by decide
        rw [hpcs] at hpc
        simp only [List.mem_cons, List.mem_singleton, List.not_mem_nil, or_false] at hpc
        rcases hpc with rfl | rfl | rfl <;> exact ⟨_, rfl⟩)).1,
    by decide,
    (concurrent_next_distinct maxInt64 2 "k" (sequentialSchedule 2)
      (by decide)).2.2.2.1 (by decide),
    (concurrent_next_distinct maxInt64 2 "k" (sequentialSchedule 2)
      (by decide)).2.1 (by decide)⟩

/-! ## The durable keychain: table creation -/

theorem conn_of_error {env : Remote} {chain : PgxPool} {e : Error}
    (h : env.acquire chain.pool.acquireCalls = some e) :
    chain.conn env = (some (fmt.Errorf "acquire connection" e),
      { chain with pool := { chain.pool with acquireCalls := chain.pool.acquireCalls + 1 } }) := by
  simp [PgxPool.conn, Pool.Acquire, h]

theorem conn_of_ok {env : Remote} {chain : PgxPool}
    (h : env.acquire chain.pool.acquireCalls = none) :
    chain.conn env = (none,
      { chain with pool := { chain.pool with acquireCalls := chain.pool.acquireCalls + 1 } }) := by
  simp [PgxPool.conn, Pool.Acquire, h]

theorem createTable_of_created {env : Remote} {chain : PgxPool}
    (h : chain.created = true) : chain.CreateTable env = (none, chain) := by
  simp [PgxPool.CreateTable, h]

theorem createTable_cases (env : Remote) (chain : PgxPool) :
    (chain.CreateTable env = (none, chain) ∧ chain.created = true)
      ∨ ((chain.CreateTable env).1 ≠ none ∧ (chain.CreateTable env).2.created = false
          ∧ (chain.CreateTable env).2.pool.execLog.length ≤ chain.pool.execLog.length + 1
          ∧ (chain.CreateTable env).2.pool.acquireCalls ≤ chain.pool.acquireCalls + 1)
      ∨ ((chain.CreateTable env).1 = none ∧ (chain.CreateTable env).2.created = true
          ∧ (chain.CreateTable env).2.pool.execLog.length = chain.pool.execLog.length + 1
          ∧ (chain.CreateTable env).2.pool.acquireCalls = chain.pool.acquireCalls + 1) := by
  cases hc : chain.created with
  | true => exact Or.inl ⟨createTable_of_created hc, rfl⟩
  | false =>
    right
    unfold PgxPool.CreateTable
    simp only [hc, Bool.false_eq_true, if_false, Bool.not_false, if_true]
    rcases hq : (PostgreSQL.mk chain.table).createTable env with ⟨q, _ | gerr⟩
    · cases ha : env.acquire chain.pool.acquireCalls with
      | some e =>
        left
        simp [conn_of_error ha, hc]
      | none =>
        simp only [conn_of_ok ha]
        cases he : env.exec chain.pool.execLog.length q with
        | some e =>
          left
          simp [Pool.Exec, Pool.Release, he, hc]
        | none =>
          right
          simp [Pool.Exec, Pool.Release, he]
    · left
      simp [hc]

/-- C11 (as stated, refuted): with an oracle whose first `Exec` fails, the
first `CreateTable` on a new keychain returns an error and leaves the flag
unset; the second invocation then acquires a connection again, executes the
statement a second time and returns nil. -/
theorem createTable_retries_after_failure :
    ((NewPgxPool Pool.fresh []).CreateTable Remote.execFailsFirst).1
        = some (fmt.Errorf "execute the table creation query" (.new 1 "connection reset"))
      ∧ ((NewPgxPool Pool.fresh []).CreateTable Remote.execFailsFirst).2.pool.acquireCalls = 1
      ∧ (((NewPgxPool Pool.fresh []).CreateTable Remote.execFailsFirst).2.CreateTable
          Remote.execFailsFirst).1 = none
      ∧ (((NewPgxPool Pool.fresh []).CreateTable Remote.execFailsFirst).2.CreateTable
          Remote.execFailsFirst).2.pool.acquireCalls = 2
      ∧ (((NewPgxPool Pool.fresh []).CreateTable Remote.execFailsFirst).2.CreateTable
          Remote.execFailsFirst).2.pool.execLog = ["CREATE TABLE", "CREATE TABLE"] := by
  decide

/-- C11 (amended): for the durable keychain (`PgxPool`), whatever the oracle
answers for connection acquisition and statement execution, one `CreateTable`
acquires at most one connection and executes at most one statement; when the
first of two invocations returns nil it has set the table-created flag, the
second invocation returns nil and leaves the keychain and the pool exactly as
they were (no connection acquired, nothing executed), so the statement is
executed at most once over both; when the first returns an error the flag stays
unset; and with the flag set `CreateTable` is always such a no-op. -/
theorem createTable_at_most_once (env : Remote) (chain : PgxPool) :
    (chain.CreateTable env).2.pool.execLog.length ≤ chain.pool.execLog.length + 1
      ∧ (chain.CreateTable env).2.pool.acquireCalls ≤ chain.pool.acquireCalls + 1
      ∧ ((chain.CreateTable env).1 = none →
          (chain.CreateTable env).2.created = true
          ∧ (chain.CreateTable env).2.CreateTable env = (none, (chain.CreateTable env).2)
          ∧ ((chain.CreateTable env).2.CreateTable env).2.pool.execLog.length
              ≤ chain.pool.execLog.length + 1
          ∧ ((chain.CreateTable env).2.CreateTable env).2.pool.acquireCalls
              = (chain.CreateTable env).2.pool.acquireCalls)
      ∧ ((chain.CreateTable env).1 ≠ none → (chain.CreateTable env).2.created = false)
      ∧ (chain.created = true → chain.CreateTable env = (none, chain)) := by
  have hlen : (chain.CreateTable env).2.pool.execLog.length
      ≤ chain.pool.execLog.length + 1 := by
    rcases createTable_cases env chain with ⟨h, _⟩ | ⟨_, _, h, _⟩ | ⟨_, _, h, _⟩
    · rw [h]; exact Nat.le_succ _
    · exact h
    · omega
  have hacq : (chain.CreateTable env).2.pool.acquireCalls
      ≤ chain.pool.acquireCalls + 1 := by
    rcases createTable_cases env chain with ⟨h, _⟩ | ⟨_, _, _, h⟩ | ⟨_, _, _, h⟩
    · rw [h]; exact Nat.le_succ _
    · exact h
    · omega
  have hset : (chain.CreateTable env).1 = none → (chain.CreateTable env).2.created = true := by
    intro hnil
    rcases createTable_cases env chain with ⟨h, hc⟩ | ⟨h, _⟩ | ⟨_, h, _⟩
    · rw [h]; exact hc
    · exact absurd hnil h
    · exact h
  refine ⟨hlen, hacq, ?_, ?_, fun h => createTable_of_created h⟩
  · intro hnil
    have hnoop := @createTable_of_created env _ (hset hnil)
    refine ⟨hset hnil, hnoop, ?_, ?_⟩
    · rw [hnoop]; exact hlen
    · rw [hnoop]
  · intro herr
    rcases createTable_cases env chain with ⟨h, _⟩ | ⟨_, h, _⟩ | ⟨h, _⟩
    · rw [h] at herr; exact absurd rfl herr
    · exact h
    · exact absurd h herr

/-- C11 (amended), applied to a new keychain and an oracle in which everything
succeeds: the first `CreateTable` returns nil, and the second returns nil with
one connection acquired and one statement executed in all. -/
theorem createTable_at_most_once_witness :
    ((NewPgxPool Pool.fresh []).CreateTable (Remote.scanning (0, none))).1 = none
      ∧ ((NewPgxPool Pool.fresh []).CreateTable (Remote.scanning (0, none))).2.created = true
      ∧ ((NewPgxPool Pool.fresh []).CreateTable (Remote.scanning (0, none))).2.CreateTable
            (Remote.scanning (0, none))
          = (none, ((NewPgxPool Pool.fresh []).CreateTable (Remote.scanning (0, none))).2)
      ∧ (((NewPgxPool Pool.fresh []).CreateTable (Remote.scanning (0, none))).2.CreateTable
            (Remote.scanning (0, none))).2.pool.execLog.length
          ≤ (NewPgxPool Pool.fresh []).pool.execLog.length + 1
      ∧ (((NewPgxPool Pool.fresh []).CreateTable (Remote.scanning (0, none))).2.CreateTable
            (Remote.scanning (0, none))).2.pool.acquireCalls = 1 :=
  ⟨by decide,
    ((createTable_at_most_once (Remote.scanning (0, none))
      (NewPgxPool Pool.fresh [])).2.2.1 (by decide)).1,
    ((createTable_at_most_once (Remote.scanning (0, none))
      (NewPgxPool Pool.fresh [])).2.2.1 (by decide)).2.1,
    ((createTable_at_most_once (Remote.scanning (0, none))
      (NewPgxPool Pool.fresh [])).2.2.1 (by decide)).2.2.1,
    by decide⟩

/-! ## The durable keychain: the last value -/

theorem Error.Is_self (e : Error) : e.Is e = true := by
  cases e <;> simp [Error.Is]

theorem errorsIs_wrapped (msg : String) (e : Error) :
    errors.Is (some (fmt.Errorf msg e)) e = true := by
  simp [errors.Is, fmt.Errorf, Error.Is, Error.Is_self]

theorem last_of_acquire_error {env : Remote} {chain : PgxPool} {key : String} {e : Error}
    (h : env.acquire chain.pool.acquireCalls = some e) :
    (chain.last env key).1 = (0, some (fmt.Errorf "acquire connection" e)) := by
  simp [PgxPool.last, conn_of_error h]

theorem last_of_scan {env : Remote} {chain : PgxPool} {key : String} {value : Int}
    {err : GoError} (ha : env.acquire chain.pool.acquireCalls = none)
    (hscan : env.scan chain.pool.queryLog.length chain.lastQuery key = (value, err)) :
    (chain.last env key).1 =
      if errors.Is err pgx.ErrNoRows then (wrapInt64 (chain.start - 1), none)
      else
        match err with
        | some e => (0, some (fmt.Errorf ("fetch last value " ++ key) e))
        | none => (value, none) := by
  simp only [PgxPool.last, conn_of_ok ha, Pool.QueryRowScan, hscan]
  split
  · rfl
  · cases err <;> rfl

/-- C12 (as stated, refuted): on a durable keychain with start `-2^63`, when
the query reports `pgx.ErrNoRows`, `Last` returns `2^63 - 1` with a nil error,
which is not `start - 1`. -/
theorem pgx_last_wraps_at_min_start :
    ((NewPgxPool Pool.fresh [PgxPoolWithStart minInt64]).Last
        (Remote.scanning (0, some pgx.ErrNoRows)) "k").1 = (maxInt64, none)
      ∧ maxInt64 ≠ minInt64 - 1 := by
  decide

/-- C12 (amended): for the durable keychain (`PgxPool`) with an `int64` start
`s` above `-2^63`, when the last-value query for a key reports that no row
exists (`pgx.ErrNoRows`, also when wrapped), `last` returns `(s - 1, nil)`; for
every other error of the query it returns 0 with the error wrapped under
"fetch last value" and the key, and for a connection-acquisition error it
returns 0 with the error wrapped under "acquire connection"; on success it
returns the scanned value with a nil error.  `Last` is `last` on the compiled
query: on the cached one when there is one, and otherwise on the one just
generated and cached. -/
theorem pgx_last_outcomes (env : Remote) (chain : PgxPool) (key : String) :
    (∀ e, env.acquire chain.pool.acquireCalls = some e →
        (chain.last env key).1 = (0, some (fmt.Errorf "acquire connection" e))
        ∧ errors.Is (chain.last env key).1.2 e = true)
      ∧ (env.acquire chain.pool.acquireCalls = none →
          ∀ value err,
            env.scan chain.pool.queryLog.length chain.lastQuery key = (value, err) →
            (errors.Is err pgx.ErrNoRows = true → IsInt64 chain.start →
                minInt64 < chain.start →
                (chain.last env key).1 = (chain.start - 1, none))
            ∧ (∀ e, err = some e → errors.Is err pgx.ErrNoRows = false →
                (chain.last env key).1
                    = (0, some (fmt.Errorf ("fetch last value " ++ key) e))
                ∧ errors.Is (chain.last env key).1.2 e = true)
            ∧ (err = none → (chain.last env key).1 = (value, none)))
      ∧ (chain.lastQuery ≠ "" → chain.Last env key = chain.last env key)
      ∧ (chain.lastQuery = "" → ∀ q, (PostgreSQL.mk chain.table).last env = (q, none) →
          chain.Last env key = ({ chain with lastQuery := q }).last env key) := by
  refine ⟨?_, ?_, ?_, ?_⟩
  · intro e he
    rw [last_of_acquire_error he]
    exact ⟨rfl, errorsIs_wrapped _ e⟩
  · intro ha value err hscan
    have h := @last_of_scan env chain key value err ha hscan
    refine ⟨?_, ?_, ?_⟩
    · intro hno hs hmin
      have hr : IsInt64 (chain.start - 1) := by
        unfold IsInt64 minInt64 maxInt64 at *
        omega
      rw [h, hno, wrapInt64_of_isInt64 hr]
      rfl
    · intro e he hno
      subst he
      rw [h, hno]
      exact ⟨rfl, errorsIs_wrapped _ e⟩
    · intro he
      subst he
      rw [h]
      rfl
  · intro hq
    simp [PgxPool.Last, hq]
  · intro hq q hgen
    simp [PgxPool.Last, hq, hgen]

/-- C12 (amended), applied to a keychain with start 1 whose last-value query
has been compiled by an earlier `Last`: a wrapped `pgx.ErrNoRows` gives
`(0, nil)`, a timeout gives 0 with the timeout wrapped, an error that only
shares the text of `pgx.ErrNoRows` and is another value gives 0 with that error
wrapped, and a scanned 41 gives `(41, nil)`. -/
theorem pgx_last_outcomes_witness :
    (((NewPgxPool Pool.fresh [PgxPoolWithStart 1]).Last
            (Remote.scanning (5, none)) "k").2.last
          (Remote.scanning (0, some (fmt.Errorf "scan" pgx.ErrNoRows))) "k").1
        = (1 - 1, none)
      ∧ (((NewPgxPool Pool.fresh [PgxPoolWithStart 1]).Last
            (Remote.scanning (5, none)) "k").2.last
          (Remote.scanning (0, some (.new 2 "timeout"))) "k").1
        = (0, some (fmt.Errorf ("fetch last value " ++ "k") (.new 2 "timeout")))
      ∧ (((NewPgxPool Pool.fresh [PgxPoolWithStart 1]).Last
            (Remote.scanning (5, none)) "k").2.last
          (Remote.scanning (0, some (.new 7 "no rows in result set"))) "k").1
        = (0, some (fmt.Errorf ("fetch last value " ++ "k")
            (.new 7 "no rows in result set")))
      ∧ (((NewPgxPool Pool.fresh [PgxPoolWithStart 1]).Last
            (Remote.scanning (5, none)) "k").2.last
          (Remote.scanning (41, none)) "k").1 = (41, none)
      ∧ ((NewPgxPool Pool.fresh [PgxPoolWithStart 1]).Last
            (Remote.scanning (5, none)) "k").2.Last (Remote.scanning (41, none)) "k"
        = ((NewPgxPool Pool.fresh [PgxPoolWithStart 1]).Last
            (Remote.scanning (5, none)) "k").2.last (Remote.scanning (41, none)) "k" :=
  ⟨((pgx_last_outcomes (Remote.scanning (0, some (fmt.Errorf "scan" pgx.ErrNoRows)))
      ((NewPgxPool Pool.fresh [PgxPoolWithStart 1]).Last (Remote.scanning (5, none)) "k").2
      "k").2.1 rfl 0 (some (fmt.Errorf "scan" pgx.ErrNoRows)) rfl).1
      (by decide) (by decide) (by decide),
    (((pgx_last_outcomes (Remote.scanning (0, some (.new 2 "timeout")))
      ((NewPgxPool Pool.fresh [PgxPoolWithStart 1]).Last (Remote.scanning (5, none)) "k").2
      "k").2.1 rfl 0 (some (.new 2 "timeout")) rfl).2.1 (.new 2 "timeout") rfl (by decide)).1,
    (((pgx_last_outcomes (Remote.scanning (0, some (.new 7 "no rows in result set")))
      ((NewPgxPool Pool.fresh [PgxPoolWithStart 1]).Last (Remote.scanning (5, none)) "k").2
      "k").2.1 rfl 0 (some (.new 7 "no rows in result set")) rfl).2.1
      (.new 7 "no rows in result set") rfl (by decide)).1,
    ((pgx_last_outcomes (Remote.scanning (41, none))
      ((NewPgxPool Pool.fresh [PgxPoolWithStart 1]).Last (Remote.scanning (5, none)) "k").2
      "k").2.1 rfl 41 none rfl).2.2 rfl,
    (pgx_last_outcomes (Remote.scanning (41, none))
      ((NewPgxPool Pool.fresh [PgxPoolWithStart 1]).Last (Remote.scanning (5, none)) "k").2
      "k").2.2.1 (by decide)⟩


end Serialkey
